import Mathlib

/-!
Verification of the menu-analysis engine of the hawker-menu repository
(`src/app/api/analyse/route.ts`).

Names are modelled as `List Char`.  JavaScript's `toLowerCase`, `\w`, `\s`
and the word-boundary regexes are modelled over the ASCII characters that
are relevant here.  Prices (JavaScript numbers validated to be finite and
non-negative) are modelled as rationals; the `Infinity` / `-Infinity`
sentinels of the aggregation loop are modelled by `Option`.
-/

/-- JavaScript word character (`\w` is `[A-Za-z0-9_]`). -/
def isWordChar (c : Char) : Bool :=
  c.isAlphanum || c == '_'

/-- Whitespace as matched by `\s` (restricted to the ASCII whitespace
characters). -/
def isWS (c : Char) : Bool :=
  c == ' ' || c == '\t' || c == '\n' || c == '\r'

/-- ASCII lower-casing of a character, modelling
`String.prototype.toLowerCase`. -/
def toLowerCh (c : Char) : Char :=
  if 65 ≤ c.toNat ∧ c.toNat ≤ 90 then Char.ofNat (c.toNat + 32) else c

/-- Is the first character of the list a word character?  Used for the
word-boundary (`\b`) test after a pattern match: the boundary holds at the
end of the string or before a non-word character. -/
def headIsWord : List Char → Bool
  | [] => false
  | c :: _ => isWordChar c

/-- Replacement text for `/\bmee\b/g`. -/
def noodleStr : List Char := ['n', 'o', 'o', 'd', 'l', 'e']

/-- Replacement text for `/\bnasi\b/g`. -/
def riceStr : List Char := ['r', 'i', 'c', 'e']

/-- Replacement text for `/\bbee hoon\b/g`. -/
def riceVermStr : List Char :=
  ['r', 'i', 'c', 'e', ' ', 'v', 'e', 'r', 'm', 'i', 'c', 'e', 'l', 'l', 'i']

/-- The scan of `.replace(/\bmee\b/g, "noodle")`.  The flag records whether
the previous character (in the input) is a word character; `\b` holds at a
position iff the previous character is not a word character (or the
position is the start).  After a match the scan resumes after the matched
text with the flag set for the final `e` of `mee`.  On a failed match the
scan advances a single character. -/
def replaceMeeGo : Bool → List Char → List Char
  | _, [] => []
  | _, [c1] => [c1]
  | _, [c1, c2] => [c1, c2]
  | p, c1 :: c2 :: c3 :: rest =>
    if c1 = 'm' ∧ c2 = 'e' ∧ c3 = 'e' ∧ p = false ∧ headIsWord rest = false then
      noodleStr ++ replaceMeeGo true rest
    else
      c1 :: replaceMeeGo (isWordChar c1) (c2 :: c3 :: rest)

/-- `.replace(/\bmee\b/g, "noodle")`. -/
def replaceMee (s : List Char) : List Char := replaceMeeGo false s

/-- The scan of `.replace(/\bnasi\b/g, "rice")`. -/
def replaceNasiGo : Bool → List Char → List Char
  | _, [] => []
  | _, [c1] => [c1]
  | _, [c1, c2] => [c1, c2]
  | _, [c1, c2, c3] => [c1, c2, c3]
  | p, c1 :: c2 :: c3 :: c4 :: rest =>
    if c1 = 'n' ∧ c2 = 'a' ∧ c3 = 's' ∧ c4 = 'i' ∧ p = false ∧
        headIsWord rest = false then
      riceStr ++ replaceNasiGo true rest
    else
      c1 :: replaceNasiGo (isWordChar c1) (c2 :: c3 :: c4 :: rest)

/-- `.replace(/\bnasi\b/g, "rice")`. -/
def replaceNasi (s : List Char) : List Char := replaceNasiGo false s

/-- The scan of `.replace(/\bbee hoon\b/g, "rice vermicelli")`. -/
def replaceBeeHoonGo : Bool → List Char → List Char
  | _, [] => []
  | _, [c1] => [c1]
  | _, [c1, c2] => [c1, c2]
  | _, [c1, c2, c3] => [c1, c2, c3]
  | _, [c1, c2, c3, c4] => [c1, c2, c3, c4]
  | _, [c1, c2, c3, c4, c5] => [c1, c2, c3, c4, c5]
  | _, [c1, c2, c3, c4, c5, c6] => [c1, c2, c3, c4, c5, c6]
  | _, [c1, c2, c3, c4, c5, c6, c7] => [c1, c2, c3, c4, c5, c6, c7]
  | p, c1 :: c2 :: c3 :: c4 :: c5 :: c6 :: c7 :: c8 :: rest =>
    if c1 = 'b' ∧ c2 = 'e' ∧ c3 = 'e' ∧ c4 = ' ' ∧ c5 = 'h' ∧ c6 = 'o' ∧
        c7 = 'o' ∧ c8 = 'n' ∧ p = false ∧ headIsWord rest = false then
      riceVermStr ++ replaceBeeHoonGo true rest
    else
      c1 :: replaceBeeHoonGo (isWordChar c1)
        (c2 :: c3 :: c4 :: c5 :: c6 :: c7 :: c8 :: rest)

/-- `.replace(/\bbee hoon\b/g, "rice vermicelli")`. -/
def replaceBeeHoon (s : List Char) : List Char := replaceBeeHoonGo false s

/-- The scan of `.replace(/\s+/g, " ")`: every maximal run of whitespace is
replaced by a single space.  The flag records whether the previous input
character was whitespace. -/
def collapseWsGo : Bool → List Char → List Char
  | _, [] => []
  | p, c :: rest =>
    if isWS c then
      (if p then [] else [' ']) ++ collapseWsGo true rest
    else
      c :: collapseWsGo false rest

/-- `.replace(/\s+/g, " ")`. -/
def collapseWs (s : List Char) : List Char := collapseWsGo false s

/-- Remove a maximal whitespace suffix. -/
def dropTrailingWs : List Char → List Char
  | [] => []
  | c :: rest =>
    let r := dropTrailingWs rest
    if r.isEmpty && isWS c then [] else c :: r

/-- `.trim()`: remove leading and trailing whitespace. -/
def trimWs (s : List Char) : List Char :=
  dropTrailingWs (s.dropWhile (fun c => isWS c))

/-- `canonicaliseName` from the source: lower-case, substitute the three
word-bounded dish terms, collapse whitespace runs, trim. -/
def canonicaliseName (name : List Char) : List Char :=
  trimWs (collapseWs (replaceBeeHoon (replaceNasi (replaceMee
    (name.map toLowerCh)))))

/-- A gap between two literal words of a calorie pattern: `\s*` or `\s+`. -/
inductive Gap
  | star
  | plus
deriving DecidableEq

/-- One alternative of a calorie-estimation regex: a first literal word
followed by gap/literal pairs (for example `chicken\s+rice`). -/
structure SeqPat where
  first : List Char
  rest : List (Gap × List Char)

/-- If `lit` is a prefix of `s`, return the remainder. -/
def stripLit : List Char → List Char → Option (List Char)
  | [], s => some s
  | _ :: _, [] => none
  | c :: l, d :: s => if c = d then stripLit l s else none

/-- Count and drop the maximal whitespace prefix. -/
def dropWsCount : List Char → Nat × List Char
  | [] => (0, [])
  | c :: rest =>
    if isWS c then
      let r := dropWsCount rest
      (r.1 + 1, r.2)
    else
      (0, c :: rest)

/-- Match the gap/literal tail of a `SeqPat` at the start of `s`.  All
literals start with a letter, so a gap can only succeed by consuming the
whole whitespace run, which makes the greedy scan equivalent to the
regex. -/
def matchSeqRest : List (Gap × List Char) → List Char → Bool
  | [], _ => true
  | (g, lit) :: ps, s =>
    let d := dropWsCount s
    (match g with
     | Gap.plus => decide (0 < d.1)
     | Gap.star => true) &&
    (match stripLit lit d.2 with
     | some r => matchSeqRest ps r
     | none => false)

/-- Match a `SeqPat` at the start of `s`. -/
def matchSeqAt (p : SeqPat) (s : List Char) : Bool :=
  match stripLit p.first s with
  | some r => matchSeqRest p.rest r
  | none => false

/-- `.test`: does the pattern match anywhere in `s`? -/
def containsSeq (p : SeqPat) : List Char → Bool
  | [] => matchSeqAt p []
  | c :: rest => matchSeqAt p (c :: rest) || containsSeq p rest

/-- One regex of `estimateCalories`: a list of alternatives. -/
def testPat (alts : List SeqPat) (s : List Char) : Bool :=
  alts.any (fun p => containsSeq p s)

def chickenRicePats : List SeqPat :=
  [⟨"chicken".data, [(Gap.plus, "rice".data)]⟩,
   ⟨"hainanese".data, [(Gap.plus, "chicken".data)]⟩]

def fishSoupPats : List SeqPat :=
  [⟨"fish".data, [(Gap.star, "soup".data)]⟩]

def yongTauFooPats : List SeqPat :=
  [⟨"yong".data, [(Gap.star, "tau".data), (Gap.star, "foo".data)]⟩]

def banMianPats : List SeqPat :=
  [⟨"ban".data, [(Gap.star, "mian".data)]⟩,
   ⟨"noodle".data, [(Gap.star, "soup".data)]⟩]

def laksaPats : List SeqPat := [⟨"laksa".data, []⟩]

def charKwayTeowPats : List SeqPat :=
  [⟨"char".data, [(Gap.star, "kway".data), (Gap.star, "teow".data)]⟩]

def economicRicePats : List SeqPat :=
  [⟨"economic".data, [(Gap.star, "rice".data)]⟩,
   ⟨"mixed".data, [(Gap.star, "veg".data)]⟩]

def fishballNoodlePats : List SeqPat :=
  [⟨"fishball".data, [(Gap.star, "noodle".data)]⟩]

def duckRicePats : List SeqPat :=
  [⟨"duck".data, [(Gap.star, "rice".data)]⟩]

/-- `estimateCalories` from the source: canonicalise the name, then try the
nine patterns in order; the first match decides the range, otherwise the
fallback `(350, 700)` is returned. -/
def estimateCalories (name : List Char) : Nat × Nat :=
  let n := canonicaliseName name
  if testPat chickenRicePats n then (550, 700)
  else if testPat fishSoupPats n then (250, 380)
  else if testPat yongTauFooPats n then (300, 500)
  else if testPat banMianPats n then (450, 650)
  else if testPat laksaPats n then (600, 900)
  else if testPat charKwayTeowPats n then (740, 950)
  else if testPat economicRicePats n then (500, 800)
  else if testPat fishballNoodlePats n then (400, 600)
  else if testPat duckRicePats n then (600, 800)
  else (350, 700)

/-- A validated input item (`name` an arbitrary string, `price` a finite
non-negative number). -/
structure Item where
  name : List Char
  price : ℚ
deriving DecidableEq

/-- A derived item as built by the `items.map` of the handler. -/
structure CanonItem where
  name : List Char
  price : ℚ
  calories : Nat × Nat
deriving DecidableEq

/-- The per-item derivation `(name, price, calories)` of the handler. -/
def toCanon (it : Item) : CanonItem :=
  { name := canonicaliseName it.name
    price := it.price
    calories := estimateCalories it.name }

/-- The mutable aggregation state of the scan loop.  `none` for `minPrice`
models the `Infinity` start value and `none` for `maxPrice` models
`-Infinity`; every actual price is finite, so `price < Infinity` and
`price > -Infinity` always hold. -/
structure AggState where
  minPrice : Option ℚ
  maxPrice : Option ℚ
  healthiest : Option CanonItem
  mostFilling : Option CanonItem
deriving DecidableEq

/-- `item.price < minPrice` with `none` as `Infinity`. -/
def ltMin (p : ℚ) : Option ℚ → Bool
  | none => true
  | some q => decide (p < q)

/-- `item.price > maxPrice` with `none` as `-Infinity`. -/
def gtMax (p : ℚ) : Option ℚ → Bool
  | none => true
  | some q => decide (q < p)

/-- One iteration of the `for (const item of items)` loop. -/
def stepAgg (st : AggState) (item : CanonItem) : AggState :=
  { minPrice := if ltMin item.price st.minPrice then some item.price else st.minPrice
    maxPrice := if gtMax item.price st.maxPrice then some item.price else st.maxPrice
    healthiest :=
      match st.healthiest with
      | none => some item
      | some h => if item.calories.2 < h.calories.2 then some item else some h
    mostFilling :=
      match st.mostFilling with
      | none => some item
      | some h => if h.calories.2 < item.calories.2 then some item else some h }

def initAgg : AggState := ⟨none, none, none, none⟩

/-- `item.price === minPrice` for the filters, with `none` as an infinite
sentinel (never equal to a finite price). -/
def priceEqOpt (p : ℚ) : Option ℚ → Bool
  | none => false
  | some q => decide (p = q)

/-- The response object of a successful analysis. -/
structure AnalysisResult where
  cheapest : List CanonItem
  most_expensive : List CanonItem
  healthiest : Option CanonItem
  most_filling : Option CanonItem
  follow_up_questions : List (List Char)
deriving DecidableEq

def followUps : List (List Char) :=
  ["Show me the cheapest and most expensive again.".data,
   "Which options are vegetarian?".data,
   "How can I make the healthiest option more filling?".data]

/-- The analysis part of the handler on validated items: derive the canonical
items, run the aggregation loop, filter the price ties, and build the
response. -/
def analyseValid (items : List Item) : AnalysisResult :=
  let canon := items.map toCanon
  let st := canon.foldl stepAgg initAgg
  { cheapest := canon.filter (fun it => priceEqOpt it.price st.minPrice)
    most_expensive := canon.filter (fun it => priceEqOpt it.price st.maxPrice)
    healthiest := st.healthiest
    most_filling := st.mostFilling
    follow_up_questions := followUps }

/-- A JavaScript number as it can reach the schema: a finite value, `NaN`,
or an infinity (`JSON.parse` can produce infinities through overflowing
literals). -/
inductive JNum
  | num (q : ℚ)
  | nan
  | inf
  | neginf
deriving DecidableEq

/-- A parsed JSON value, the input of `ItemsSchema.safeParse`. -/
inductive JValue
  | null
  | bool (b : Bool)
  | num (n : JNum)
  | str (s : List Char)
  | arr (elems : List JValue)
  | obj (fields : List (List Char × JValue))

/-- Property lookup on a JavaScript object built by `JSON.parse`; with
duplicate keys the last occurrence wins. -/
def lookupField (fields : List (List Char × JValue)) (key : List Char) :
    Option JValue :=
  fields.foldl (fun acc f => if f.1 = key then some f.2 else acc) none

/-- A structured validation issue, modelling the members of
`parsed.error.issues`. -/
inductive Issue
  | rootNotObject
  | itemsNotArray
  | arrayTooSmall
  | itemNotObject (idx : Nat)
  | nameNotString (idx : Nat)
  | priceNotNumber (idx : Nat)
  | priceNegative (idx : Nat)
  | priceNotFinite (idx : Nat)
deriving DecidableEq

/-- Check one element of the `items` array against
`z.object({name: z.string(), price: z.number().min(0).finite()})`:
collect the issues and, when there are none, the parsed item. -/
def parseItem (idx : Nat) (v : JValue) : List Issue × Option Item :=
  match v with
  | JValue.obj fs =>
    let nameR : Option (List Char) :=
      match lookupField fs "name".data with
      | some (JValue.str s) => some s
      | _ => none
    let priceR : List Issue ⊕ ℚ :=
      match lookupField fs "price".data with
      | some (JValue.num (JNum.num q)) =>
        if q < 0 then Sum.inl [Issue.priceNegative idx] else Sum.inr q
      | some (JValue.num JNum.inf) => Sum.inl [Issue.priceNotFinite idx]
      | some (JValue.num JNum.neginf) =>
        Sum.inl [Issue.priceNegative idx, Issue.priceNotFinite idx]
      | _ => Sum.inl [Issue.priceNotNumber idx]
    match nameR, priceR with
    | some s, Sum.inr q => ([], some ⟨s, q⟩)
    | some _, Sum.inl is => (is, none)
    | none, Sum.inr _ => ([Issue.nameNotString idx], none)
    | none, Sum.inl is => (Issue.nameNotString idx :: is, none)
  | _ => ([Issue.itemNotObject idx], none)

/-- `ItemsSchema.safeParse`: the body must be an object whose `items`
member is an array of at least one valid item; on failure the collected
issues are reported. -/
def parseItems (v : JValue) : Except (List Issue) (List Item) :=
  match v with
  | JValue.obj fs =>
    match lookupField fs "items".data with
    | some (JValue.arr xs) =>
      let per := (xs.enum).map (fun e => parseItem e.1 e.2)
      let issues :=
        (if xs.length < 1 then [Issue.arrayTooSmall] else []) ++
        (per.map Prod.fst).flatten
      match issues with
      | [] => Except.ok (per.filterMap Prod.snd)
      | i :: is => Except.error (i :: is)
    | _ => Except.error [Issue.itemsNotArray]
  | _ => Except.error [Issue.rootNotObject]

/-- The body of a response of the endpoint. -/
inductive RespBody
  | analysis (r : AnalysisResult)
  | invalid (issues : List Issue)
  | serverError
deriving DecidableEq

structure HttpResponse where
  status : Nat
  body : RespBody
deriving DecidableEq

/-- The `POST` handler.  Its input is the outcome of `req.json()`:
`Except.error` when the request body is not syntactically valid JSON (in
which case control reaches the `catch` block), otherwise the parsed value.
Invalid payloads are answered with status 400 and the issues; valid ones
with status 200 and the analysis. -/
def POST (body : Except Unit JValue) : HttpResponse :=
  match body with
  | Except.error _ => ⟨500, RespBody.serverError⟩
  | Except.ok j =>
    match parseItems j with
    | Except.error issues => ⟨400, RespBody.invalid issues⟩
    | Except.ok items => ⟨200, RespBody.analysis (analyseValid items)⟩

/-- Does `/\bmee\b/` match at the start of the string, given whether the
previous character is a word character? -/
def headMatchMee (p : Bool) : List Char → Bool
  | [] => false
  | [_] => false
  | [_, _] => false
  | c1 :: c2 :: c3 :: rest =>
    decide (c1 = 'm' ∧ c2 = 'e' ∧ c3 = 'e' ∧ p = false ∧ headIsWord rest = false)

/-- Does `/\bmee\b/` match anywhere, scanning with the previous-character
flag exactly as `replaceMeeGo` does? -/
def hasOccMeeGo : Bool → List Char → Bool
  | _, [] => false
  | _, [_] => false
  | _, [_, _] => false
  | p, c1 :: c2 :: c3 :: rest =>
    if c1 = 'm' ∧ c2 = 'e' ∧ c3 = 'e' ∧ p = false ∧ headIsWord rest = false then
      true
    else
      hasOccMeeGo (isWordChar c1) (c2 :: c3 :: rest)

/-- Does `/\bnasi\b/` match at the start of the string? -/
def headMatchNasi (p : Bool) : List Char → Bool
  | [] => false
  | [_] => false
  | [_, _] => false
  | [_, _, _] => false
  | c1 :: c2 :: c3 :: c4 :: rest =>
    decide (c1 = 'n' ∧ c2 = 'a' ∧ c3 = 's' ∧ c4 = 'i' ∧ p = false ∧
      headIsWord rest = false)

/-- Does `/\bnasi\b/` match anywhere? -/
def hasOccNasiGo : Bool → List Char → Bool
  | _, [] => false
  | _, [_] => false
  | _, [_, _] => false
  | _, [_, _, _] => false
  | p, c1 :: c2 :: c3 :: c4 :: rest =>
    if c1 = 'n' ∧ c2 = 'a' ∧ c3 = 's' ∧ c4 = 'i' ∧ p = false ∧
        headIsWord rest = false then
      true
    else
      hasOccNasiGo (isWordChar c1) (c2 :: c3 :: c4 :: rest)

/-- Does `/\bbee hoon\b/` match at the start of the string? -/
def headMatchBeeHoon (p : Bool) : List Char → Bool
  | [] => false
  | [_] => false
  | [_, _] => false
  | [_, _, _] => false
  | [_, _, _, _] => false
  | [_, _, _, _, _] => false
  | [_, _, _, _, _, _] => false
  | [_, _, _, _, _, _, _] => false
  | c1 :: c2 :: c3 :: c4 :: c5 :: c6 :: c7 :: c8 :: rest =>
    decide (c1 = 'b' ∧ c2 = 'e' ∧ c3 = 'e' ∧ c4 = ' ' ∧ c5 = 'h' ∧ c6 = 'o' ∧
      c7 = 'o' ∧ c8 = 'n' ∧ p = false ∧ headIsWord rest = false)

/-- Does `/\bbee hoon\b/` match anywhere? -/
def hasOccBeeHoonGo : Bool → List Char → Bool
  | _, [] => false
  | _, [_] => false
  | _, [_, _] => false
  | _, [_, _, _] => false
  | _, [_, _, _, _] => false
  | _, [_, _, _, _, _] => false
  | _, [_, _, _, _, _, _] => false
  | _, [_, _, _, _, _, _, _] => false
  | p, c1 :: c2 :: c3 :: c4 :: c5 :: c6 :: c7 :: c8 :: rest =>
    if c1 = 'b' ∧ c2 = 'e' ∧ c3 = 'e' ∧ c4 = ' ' ∧ c5 = 'h' ∧ c6 = 'o' ∧
        c7 = 'o' ∧ c8 = 'n' ∧ p = false ∧ headIsWord rest = false then
      true
    else
      hasOccBeeHoonGo (isWordChar c1) (c2 :: c3 :: c4 :: c5 :: c6 :: c7 :: c8 :: rest)

/-- Every whitespace character of the string is a plain space. -/
def spacesOnly (s : List Char) : Bool :=
  s.all (fun c => !isWS c || decide (c = ' '))

/-- No two adjacent characters are both spaces. -/
def noDoubleSpace : List Char → Bool
  | [] => true
  | [_] => true
  | c :: d :: r => !(decide (c = ' ' ∧ d = ' ')) && noDoubleSpace (d :: r)

/-- The string does not start with whitespace. -/
def headNotWS : List Char → Bool
  | [] => true
  | c :: _ => !isWS c

/-- The string does not end with whitespace. -/
def lastNotWS : List Char → Bool
  | [] => true
  | [c] => !isWS c
  | _ :: d :: r => lastNotWS (d :: r)

/-- Does the string start with a space? -/
def headIsSpace : List Char → Bool
  | [] => false
  | c :: _ => decide (c = ' ')

/-- Whitespace-normalized: whitespace characters are plain spaces, never
doubled, and neither leading nor trailing. -/
def wsNormalized (s : List Char) : Bool :=
  spacesOnly s && noDoubleSpace s && headNotWS s && lastNotWS s

/-- Every character is fixed by lower-casing. -/
def allLower (s : List Char) : Bool :=
  s.all (fun c => decide (toLowerCh c = c))

/-- Projection of `stepAgg` to the `minPrice` field. -/
def minStep (m : Option ℚ) (p : ℚ) : Option ℚ :=
  if ltMin p m then some p else m

/-- Projection of `stepAgg` to the `maxPrice` field. -/
def maxStep (m : Option ℚ) (p : ℚ) : Option ℚ :=
  if gtMax p m then some p else m

/-- Projection of `stepAgg` to the `healthiest` field. -/
def hStep (acc : Option CanonItem) (it : CanonItem) : Option CanonItem :=
  match acc with
  | none => some it
  | some h => if it.calories.2 < h.calories.2 then some it else some h

/-- Projection of `stepAgg` to the `mostFilling` field. -/
def fStep (acc : Option CanonItem) (it : CanonItem) : Option CanonItem :=
  match acc with
  | none => some it
  | some h => if h.calories.2 < it.calories.2 then some it else some h

/-- The ordered rule table of `estimateCalories`, written as data: the
spec's nine pattern/range pairs in priority order. -/
def calorieRules : List (List SeqPat × (Nat × Nat)) :=
  [(chickenRicePats, (550, 700)),
   (fishSoupPats, (250, 380)),
   (yongTauFooPats, (300, 500)),
   (banMianPats, (450, 650)),
   (laksaPats, (600, 900)),
   (charKwayTeowPats, (740, 950)),
   (economicRicePats, (500, 800)),
   (fishballNoodlePats, (400, 600)),
   (duckRicePats, (600, 800))]

/-- First-match-wins evaluation of the rule table with the fallback range,
following the spec's description of the classifier. -/
def estimateCaloriesTable (name : List Char) : Nat × Nat :=
  match calorieRules.find? (fun r => testPat r.1 (canonicaliseName name)) with
  | some r => r.2
  | none => (350, 700)

/-- Encode an item as the JSON object `(name, price)`. -/
def encodeItem (it : Item) : JValue :=
  JValue.obj [("name".data, JValue.str it.name),
              ("price".data, JValue.num (JNum.num it.price))]

/-- Encode an item list as a request body. -/
def encodeItems (its : List Item) : JValue :=
  JValue.obj [("items".data, JValue.arr (its.map encodeItem))]

/-- Does an element of the `items` array have a negative, non-finite or
missing price? -/
def priceBad (v : JValue) : Bool :=
  match v with
  | JValue.obj fs =>
    match lookupField fs "price".data with
    | some (JValue.num (JNum.num q)) => decide (q < 0)
    | some (JValue.num _) => true
    | _ => true
  | _ => true

theorem foldAgg_fields (l : List CanonItem) : ∀ (st : AggState),
    l.foldl stepAgg st =
      ⟨l.foldl (fun m it => minStep m it.price) st.minPrice,
       l.foldl (fun m it => maxStep m it.price) st.maxPrice,
       l.foldl hStep st.healthiest,
       l.foldl fStep st.mostFilling⟩ := by
  induction l with
  | nil => intro st; rfl
  | cons a l ih =>
    intro st
    simp only [List.foldl_cons]
    rw [ih]
    rfl

theorem minFold_some (l : List CanonItem) : ∀ (q1 : ℚ), ∃ q,
    l.foldl (fun m it => minStep m it.price) (some q1) = some q ∧ q ≤ q1 ∧
      (q = q1 ∨ ∃ it ∈ l, it.price = q) ∧ ∀ it ∈ l, q ≤ it.price := by
  induction l with
  | nil =>
    intro q1
    exact ⟨q1, rfl, le_refl _, Or.inl rfl, by simp⟩
  | cons a l ih =>
    intro q1
    simp only [List.foldl_cons]
    by_cases hlt : a.price < q1
    · have hstep : minStep (some q1) a.price = some a.price := by
        simp [minStep, ltMin, hlt]
      rw [hstep]
      obtain ⟨q, heq, hle, hor, hall⟩ := ih a.price
      refine ⟨q, heq, le_of_lt (lt_of_le_of_lt hle hlt), ?_, ?_⟩
      · rcases hor with h | ⟨it, hmem, hp⟩
        · exact Or.inr ⟨a, List.mem_cons_self a l, h.symm⟩
        · exact Or.inr ⟨it, List.mem_cons_of_mem a hmem, hp⟩
      · intro it hit
        rcases List.mem_cons.mp hit with rfl | hmem
        · exact hle
        · exact hall it hmem
    · have hstep : minStep (some q1) a.price = some q1 := by
        simp [minStep, ltMin, hlt]
      rw [hstep]
      obtain ⟨q, heq, hle, hor, hall⟩ := ih q1
      refine ⟨q, heq, hle, ?_, ?_⟩
      · rcases hor with h | ⟨it, hmem, hp⟩
        · exact Or.inl h
        · exact Or.inr ⟨it, List.mem_cons_of_mem a hmem, hp⟩
      · intro it hit
        rcases List.mem_cons.mp hit with rfl | hmem
        · exact le_trans hle (le_of_not_lt hlt)
        · exact hall it hmem

theorem maxFold_some (l : List CanonItem) : ∀ (q1 : ℚ), ∃ q,
    l.foldl (fun m it => maxStep m it.price) (some q1) = some q ∧ q1 ≤ q ∧
      (q = q1 ∨ ∃ it ∈ l, it.price = q) ∧ ∀ it ∈ l, it.price ≤ q := by
  induction l with
  | nil =>
    intro q1
    exact ⟨q1, rfl, le_refl _, Or.inl rfl, by simp⟩
  | cons a l ih =>
    intro q1
    simp only [List.foldl_cons]
    by_cases hlt : q1 < a.price
    · have hstep : maxStep (some q1) a.price = some a.price := by
        simp [maxStep, gtMax, hlt]
      rw [hstep]
      obtain ⟨q, heq, hle, hor, hall⟩ := ih a.price
      refine ⟨q, heq, le_of_lt (lt_of_lt_of_le hlt hle), ?_, ?_⟩
      · rcases hor with h | ⟨it, hmem, hp⟩
        · exact Or.inr ⟨a, List.mem_cons_self a l, h.symm⟩
        · exact Or.inr ⟨it, List.mem_cons_of_mem a hmem, hp⟩
      · intro it hit
        rcases List.mem_cons.mp hit with rfl | hmem
        · exact hle
        · exact hall it hmem
    · have hstep : maxStep (some q1) a.price = some q1 := by
        simp [maxStep, gtMax, hlt]
      rw [hstep]
      obtain ⟨q, heq, hle, hor, hall⟩ := ih q1
      refine ⟨q, heq, hle, ?_, ?_⟩
      · rcases hor with h | ⟨it, hmem, hp⟩
        · exact Or.inl h
        · exact Or.inr ⟨it, List.mem_cons_of_mem a hmem, hp⟩
      · intro it hit
        rcases List.mem_cons.mp hit with rfl | hmem
        · exact le_trans (le_of_not_lt hlt) hle
        · exact hall it hmem

theorem hFold_some (l : List CanonItem) : ∀ (h0 : CanonItem), ∃ h,
    l.foldl hStep (some h0) = some h ∧ h.calories.2 ≤ h0.calories.2 ∧
      (∃ pre post, h0 :: l = pre ++ h :: post ∧
        ∀ x ∈ pre, h.calories.2 < x.calories.2) ∧
      ∀ x ∈ l, h.calories.2 ≤ x.calories.2 := by
  induction l with
  | nil =>
    intro h0
    exact ⟨h0, rfl, le_refl _, ⟨[], [], rfl, by simp⟩, by simp⟩
  | cons a l ih =>
    intro h0
    simp only [List.foldl_cons]
    by_cases hlt : a.calories.2 < h0.calories.2
    · have hstep : hStep (some h0) a = some a := by simp [hStep, hlt]
      rw [hstep]
      obtain ⟨h, heq, hle, ⟨pre, post, hdec, hstrict⟩, hall⟩ := ih a
      refine ⟨h, heq, le_of_lt (lt_of_le_of_lt hle hlt),
        ⟨h0 :: pre, post, ?_, ?_⟩, ?_⟩
      · rw [List.cons_append, ← hdec]
      · intro x hx
        rcases List.mem_cons.mp hx with rfl | hx'
        · exact lt_of_le_of_lt hle hlt
        · exact hstrict x hx'
      · intro x hx
        rcases List.mem_cons.mp hx with rfl | hx'
        · exact hle
        · exact hall x hx'
    · have hstep : hStep (some h0) a = some h0 := by simp [hStep, hlt]
      rw [hstep]
      obtain ⟨h, heq, hle, ⟨pre, post, hdec, hstrict⟩, hall⟩ := ih h0
      cases pre with
      | nil =>
        simp only [List.nil_append] at hdec
        injection hdec with h1 h2
        have hh : h = h0 := h1.symm
        subst hh
        refine ⟨h, heq, le_refl _, ⟨[], a :: l, rfl, by simp⟩, ?_⟩
        intro x hx
        rcases List.mem_cons.mp hx with rfl | hx'
        · exact le_of_not_lt hlt
        · exact hall x hx'
      | cons p0 pre' =>
        rw [List.cons_append] at hdec
        injection hdec with h1 h2
        subst h1
        have hs0 : h.calories.2 < h0.calories.2 :=
          hstrict h0 (List.mem_cons_self h0 pre')
        refine ⟨h, heq, hle, ⟨h0 :: a :: pre', post, ?_, ?_⟩, ?_⟩
        · rw [List.cons_append, List.cons_append, ← h2]
        · intro x hx
          rcases List.mem_cons.mp hx with rfl | hx'
          · exact hs0
          · rcases List.mem_cons.mp hx' with rfl | hx''
            · exact lt_of_lt_of_le hs0 (le_of_not_lt hlt)
            · exact hstrict x (List.mem_cons_of_mem _ hx'')
        · intro x hx
          rcases List.mem_cons.mp hx with rfl | hx'
          · exact le_trans (le_of_lt hs0) (le_of_not_lt hlt)
          · exact hall x hx'

theorem fFold_some (l : List CanonItem) : ∀ (h0 : CanonItem), ∃ h,
    l.foldl fStep (some h0) = some h ∧ h0.calories.2 ≤ h.calories.2 ∧
      (∃ pre post, h0 :: l = pre ++ h :: post ∧
        ∀ x ∈ pre, x.calories.2 < h.calories.2) ∧
      ∀ x ∈ l, x.calories.2 ≤ h.calories.2 := by
  induction l with
  | nil =>
    intro h0
    exact ⟨h0, rfl, le_refl _, ⟨[], [], rfl, by simp⟩, by simp⟩
  | cons a l ih =>
    intro h0
    simp only [List.foldl_cons]
    by_cases hlt : h0.calories.2 < a.calories.2
    · have hstep : fStep (some h0) a = some a := by simp [fStep, hlt]
      rw [hstep]
      obtain ⟨h, heq, hle, ⟨pre, post, hdec, hstrict⟩, hall⟩ := ih a
      refine ⟨h, heq, le_of_lt (lt_of_lt_of_le hlt hle),
        ⟨h0 :: pre, post, ?_, ?_⟩, ?_⟩
      · rw [List.cons_append, ← hdec]
      · intro x hx
        rcases List.mem_cons.mp hx with rfl | hx'
        · exact lt_of_lt_of_le hlt hle
        · exact hstrict x hx'
      · intro x hx
        rcases List.mem_cons.mp hx with rfl | hx'
        · exact hle
        · exact hall x hx'
    · have hstep : fStep (some h0) a = some h0 := by simp [fStep, hlt]
      rw [hstep]
      obtain ⟨h, heq, hle, ⟨pre, post, hdec, hstrict⟩, hall⟩ := ih h0
      cases pre with
      | nil =>
        simp only [List.nil_append] at hdec
        injection hdec with h1 h2
        have hh : h = h0 := h1.symm
        subst hh
        refine ⟨h, heq, le_refl _, ⟨[], a :: l, rfl, by simp⟩, ?_⟩
        intro x hx
        rcases List.mem_cons.mp hx with rfl | hx'
        · exact le_of_not_lt hlt
        · exact hall x hx'
      | cons p0 pre' =>
        rw [List.cons_append] at hdec
        injection hdec with h1 h2
        subst h1
        have hs0 : h0.calories.2 < h.calories.2 :=
          hstrict h0 (List.mem_cons_self h0 pre')
        refine ⟨h, heq, hle, ⟨h0 :: a :: pre', post, ?_, ?_⟩, ?_⟩
        · rw [List.cons_append, List.cons_append, ← h2]
        · intro x hx
          rcases List.mem_cons.mp hx with rfl | hx'
          · exact hs0
          · rcases List.mem_cons.mp hx' with rfl | hx''
            · exact lt_of_le_of_lt (le_of_not_lt hlt) hs0
            · exact hstrict x (List.mem_cons_of_mem _ hx'')
        · intro x hx
          rcases List.mem_cons.mp hx with rfl | hx'
          · exact le_trans (le_of_not_lt hlt) (le_of_lt hs0)
          · exact hall x hx'

/-- Claim C1: for every non-empty input list there are extremal prices `m`
and `M` attained by items such that `cheapest` is exactly the in-order
subsequence of canonical items priced `m`, `most_expensive` exactly the one
priced `M`, and neither list is empty. -/
theorem claim1_cheapest_most_expensive (items : List Item) (hne : items ≠ []) :
    ∃ m M : ℚ,
      (∀ it ∈ items.map toCanon, m ≤ it.price ∧ it.price ≤ M) ∧
      (∃ it ∈ items.map toCanon, it.price = m) ∧
      (∃ it ∈ items.map toCanon, it.price = M) ∧
      (analyseValid items).cheapest =
        (items.map toCanon).filter (fun it => decide (it.price = m)) ∧
      (analyseValid items).most_expensive =
        (items.map toCanon).filter (fun it => decide (it.price = M)) ∧
      (analyseValid items).cheapest ≠ [] ∧
      (analyseValid items).most_expensive ≠ [] := by
  cases items with
  | nil => exact absurd rfl hne
  | cons i0 its =>
    obtain ⟨m, heqm, hlem, horm, hallm⟩ := minFold_some (its.map toCanon) (toCanon i0).price
    obtain ⟨M, heqM, hleM, horM, hallM⟩ := maxFold_some (its.map toCanon) (toCanon i0).price
    have hmin : (((i0 :: its).map toCanon).foldl stepAgg initAgg).minPrice = some m := by
      rw [foldAgg_fields]
      simp only [List.map_cons, List.foldl_cons]
      have h0 : minStep initAgg.minPrice (toCanon i0).price = some (toCanon i0).price := by
        simp [minStep, ltMin, initAgg]
      rw [h0]
      exact heqm
    have hmax : (((i0 :: its).map toCanon).foldl stepAgg initAgg).maxPrice = some M := by
      rw [foldAgg_fields]
      simp only [List.map_cons, List.foldl_cons]
      have h0 : maxStep initAgg.maxPrice (toCanon i0).price = some (toCanon i0).price := by
        simp [maxStep, gtMax, initAgg]
      rw [h0]
      exact heqM
    have hexm : ∃ it ∈ (i0 :: its).map toCanon, it.price = m := by
      rcases horm with h | ⟨it, hmem, hp⟩
      · exact ⟨toCanon i0, by simp, h.symm⟩
      · exact ⟨it, by simp only [List.map_cons]; exact List.mem_cons_of_mem _ hmem, hp⟩
    have hexM : ∃ it ∈ (i0 :: its).map toCanon, it.price = M := by
      rcases horM with h | ⟨it, hmem, hp⟩
      · exact ⟨toCanon i0, by simp, h.symm⟩
      · exact ⟨it, by simp only [List.map_cons]; exact List.mem_cons_of_mem _ hmem, hp⟩
    have hch : (analyseValid (i0 :: its)).cheapest =
        ((i0 :: its).map toCanon).filter (fun it => decide (it.price = m)) := by
      simp only [analyseValid, hmin]
      rfl
    have hexp : (analyseValid (i0 :: its)).most_expensive =
        ((i0 :: its).map toCanon).filter (fun it => decide (it.price = M)) := by
      simp only [analyseValid, hmax]
      rfl
    refine ⟨m, M, ?_, hexm, hexM, hch, hexp, ?_, ?_⟩
    · intro it hit
      rw [List.map_cons] at hit
      rcases List.mem_cons.mp hit with rfl | hmem
      · exact ⟨hlem, hleM⟩
      · exact ⟨hallm it hmem, hallM it hmem⟩
    · rw [hch]
      obtain ⟨it, hmem, hp⟩ := hexm
      exact List.ne_nil_of_mem (List.mem_filter.mpr ⟨hmem, by simp [hp]⟩)
    · rw [hexp]
      obtain ⟨it, hmem, hp⟩ := hexM
      exact List.ne_nil_of_mem (List.mem_filter.mpr ⟨hmem, by simp [hp]⟩)

/-- Claim C2: for every non-empty input list, `healthiest` is some item
whose calorie upper bound is minimal, `most_filling` some item whose
calorie upper bound is maximal, and each is the first item of the input
attaining its extremal bound (every earlier item is strictly worse). -/
theorem claim2_healthiest_most_filling (items : List Item) (hne : items ≠ []) :
    ∃ h f : CanonItem,
      (analyseValid items).healthiest = some h ∧
      (analyseValid items).most_filling = some f ∧
      (∀ it ∈ items.map toCanon, h.calories.2 ≤ it.calories.2) ∧
      (∀ it ∈ items.map toCanon, it.calories.2 ≤ f.calories.2) ∧
      (∃ pre post, items.map toCanon = pre ++ h :: post ∧
        ∀ x ∈ pre, h.calories.2 < x.calories.2) ∧
      (∃ pre post, items.map toCanon = pre ++ f :: post ∧
        ∀ x ∈ pre, x.calories.2 < f.calories.2) := by
  cases items with
  | nil => exact absurd rfl hne
  | cons i0 its =>
    obtain ⟨h, heqh, hleh, ⟨preh, posth, hdech, hstricth⟩, hallh⟩ :=
      hFold_some (its.map toCanon) (toCanon i0)
    obtain ⟨f, heqf, hlef, ⟨pref, postf, hdecf, hstrictf⟩, hallf⟩ :=
      fFold_some (its.map toCanon) (toCanon i0)
    have hH : (analyseValid (i0 :: its)).healthiest = some h := by
      simp only [analyseValid]
      rw [foldAgg_fields]
      simp only [List.map_cons, List.foldl_cons]
      have h0 : hStep initAgg.healthiest (toCanon i0) = some (toCanon i0) := rfl
      rw [h0]
      exact heqh
    have hF : (analyseValid (i0 :: its)).most_filling = some f := by
      simp only [analyseValid]
      rw [foldAgg_fields]
      simp only [List.map_cons, List.foldl_cons]
      have h0 : fStep initAgg.mostFilling (toCanon i0) = some (toCanon i0) := rfl
      rw [h0]
      exact heqf
    refine ⟨h, f, hH, hF, ?_, ?_, ?_, ?_⟩
    · intro it hit
      rw [List.map_cons] at hit
      rcases List.mem_cons.mp hit with rfl | hmem
      · exact hleh
      · exact hallh it hmem
    · intro it hit
      rw [List.map_cons] at hit
      rcases List.mem_cons.mp hit with rfl | hmem
      · exact hlef
      · exact hallf it hmem
    · exact ⟨preh, posth, by rw [List.map_cons, hdech], hstricth⟩
    · exact ⟨pref, postf, by rw [List.map_cons, hdecf], hstrictf⟩

/-- Witness for C1 at a concrete two-item menu. -/
theorem claim1_witness :
    ∃ m M : ℚ,
      (∀ it ∈ ([⟨"laksa".data, 5⟩, ⟨"fish soup".data, 2⟩] : List Item).map toCanon,
        m ≤ it.price ∧ it.price ≤ M) ∧
      (∃ it ∈ ([⟨"laksa".data, 5⟩, ⟨"fish soup".data, 2⟩] : List Item).map toCanon,
        it.price = m) ∧
      (∃ it ∈ ([⟨"laksa".data, 5⟩, ⟨"fish soup".data, 2⟩] : List Item).map toCanon,
        it.price = M) ∧
      (analyseValid [⟨"laksa".data, 5⟩, ⟨"fish soup".data, 2⟩]).cheapest =
        (([⟨"laksa".data, 5⟩, ⟨"fish soup".data, 2⟩] : List Item).map toCanon).filter
          (fun it => decide (it.price = m)) ∧
      (analyseValid [⟨"laksa".data, 5⟩, ⟨"fish soup".data, 2⟩]).most_expensive =
        (([⟨"laksa".data, 5⟩, ⟨"fish soup".data, 2⟩] : List Item).map toCanon).filter
          (fun it => decide (it.price = M)) ∧
      (analyseValid [⟨"laksa".data, 5⟩, ⟨"fish soup".data, 2⟩]).cheapest ≠ [] ∧
      (analyseValid [⟨"laksa".data, 5⟩, ⟨"fish soup".data, 2⟩]).most_expensive ≠ [] :=
  claim1_cheapest_most_expensive [⟨"laksa".data, 5⟩, ⟨"fish soup".data, 2⟩]
    (List.cons_ne_nil _ _)

/-- Witness for C2 at a concrete two-item menu. -/
theorem claim2_witness :
    ∃ h f : CanonItem,
      (analyseValid [⟨"laksa".data, 5⟩, ⟨"fish soup".data, 2⟩]).healthiest = some h ∧
      (analyseValid [⟨"laksa".data, 5⟩, ⟨"fish soup".data, 2⟩]).most_filling = some f ∧
      (∀ it ∈ ([⟨"laksa".data, 5⟩, ⟨"fish soup".data, 2⟩] : List Item).map toCanon,
        h.calories.2 ≤ it.calories.2) ∧
      (∀ it ∈ ([⟨"laksa".data, 5⟩, ⟨"fish soup".data, 2⟩] : List Item).map toCanon,
        it.calories.2 ≤ f.calories.2) ∧
      (∃ pre post, ([⟨"laksa".data, 5⟩, ⟨"fish soup".data, 2⟩] : List Item).map toCanon =
        pre ++ h :: post ∧ ∀ x ∈ pre, h.calories.2 < x.calories.2) ∧
      (∃ pre post, ([⟨"laksa".data, 5⟩, ⟨"fish soup".data, 2⟩] : List Item).map toCanon =
        pre ++ f :: post ∧ ∀ x ∈ pre, x.calories.2 < f.calories.2) :=
  claim2_healthiest_most_filling [⟨"laksa".data, 5⟩, ⟨"fish soup".data, 2⟩]
    (List.cons_ne_nil _ _)

theorem parseItem_encode (i : Nat) (it : Item) (h : 0 ≤ it.price) :
    parseItem i (encodeItem it) = ([], some it) := by
  simp only [parseItem, encodeItem, lookupField, List.foldl_cons, List.foldl_nil]
  norm_num
  rw [if_neg (not_lt.mpr h)]

theorem enumFrom_parse_fst (its : List Item) (hp : ∀ it ∈ its, 0 ≤ it.price) : ∀ k,
    List.map (Prod.fst ∘ fun e => parseItem e.1 e.2) ((its.map encodeItem).enumFrom k) =
      its.map (fun _ => ([] : List Issue)) := by
  induction its with
  | nil => intro k; rfl
  | cons a l ih =>
    intro k
    simp only [List.map_cons, List.enumFrom, Function.comp_apply]
    rw [parseItem_encode k a (hp a (List.mem_cons_self a l))]
    rw [ih (fun it hmem => hp it (List.mem_cons_of_mem a hmem)) (k + 1)]

theorem enumFrom_parse_snd (its : List Item) (hp : ∀ it ∈ its, 0 ≤ it.price) : ∀ k,
    List.filterMap (Prod.snd ∘ fun e => parseItem e.1 e.2) ((its.map encodeItem).enumFrom k) =
      its := by
  induction its with
  | nil => intro k; rfl
  | cons a l ih =>
    intro k
    simp only [List.map_cons, List.enumFrom, List.filterMap_cons, Function.comp_apply]
    rw [parseItem_encode k a (hp a (List.mem_cons_self a l))]
    simp only []
    rw [ih (fun it hmem => hp it (List.mem_cons_of_mem a hmem)) (k + 1)]

theorem mapNil_flatten (its : List Item) :
    (its.map (fun _ => ([] : List Issue))).flatten = [] := by
  induction its with
  | nil => rfl
  | cons a l ih => simp [ih]

/-- Claim C4 (amended): an item whose name is empty (or blank) is accepted,
not rejected: validation checks only that the name is a string; for every
non-empty list of items with string names (empty ones included) and finite
non-negative prices, `safeParse` succeeds and the endpoint returns the
analysis with status 200. -/
theorem claim4_empty_name_accepted (its : List Item) (hne : its ≠ [])
    (hp : ∀ it ∈ its, 0 ≤ it.price) :
    parseItems (encodeItems its) = Except.ok its ∧
    POST (Except.ok (encodeItems its)) =
      ⟨200, RespBody.analysis (analyseValid its)⟩ := by
  have hmain : parseItems (encodeItems its) = Except.ok its := by
    simp only [parseItems, encodeItems, lookupField, List.foldl_cons, List.foldl_nil]
    norm_num
    simp only [List.enum]
    rw [if_neg hne, enumFrom_parse_fst its hp 0, enumFrom_parse_snd its hp 0,
      mapNil_flatten]
    rfl
  exact ⟨hmain, by simp [POST, hmain]⟩

/-- Counterexample to C4 as stated: the input with the single item
`(name: "", price: 1)` is not rejected with a ValidationError — the
endpoint produces a full `AnalysisResult` with status 200. -/
theorem claim4_counterexample :
    POST (Except.ok (JValue.obj [("items".data, JValue.arr
        [JValue.obj [("name".data, JValue.str []),
                     ("price".data, JValue.num (JNum.num 1))]])])) =
      ⟨200, RespBody.analysis (analyseValid [⟨[], 1⟩])⟩ := by
  decide

/-- Witness for the amended C4 at the concrete empty-name item. -/
theorem claim4_witness :
    parseItems (encodeItems [⟨[], 1⟩]) = Except.ok [⟨[], 1⟩] ∧
    POST (Except.ok (encodeItems [⟨[], 1⟩])) =
      ⟨200, RespBody.analysis (analyseValid [⟨[], 1⟩])⟩ :=
  claim4_empty_name_accepted [⟨[], 1⟩] (List.cons_ne_nil _ _)
    (by intro it hmem; rw [List.mem_singleton.mp hmem]; decide)

/-- Claim C7: the spec's two worked examples: the 3.50 chicken rice /
5.00 fish soup menu yields the stated cheapest, most expensive,
healthiest and most filling entries; on the tied 4.00 menu both items
appear in both `cheapest` and `most_expensive`. -/
theorem claim7_examples :
    analyseValid [⟨"chicken rice".data, mkRat 7 2⟩, ⟨"fish soup".data, 5⟩] =
      { cheapest := [⟨"chicken rice".data, mkRat 7 2, (550, 700)⟩]
        most_expensive := [⟨"fish soup".data, 5, (250, 380)⟩]
        healthiest := some ⟨"fish soup".data, 5, (250, 380)⟩
        most_filling := some ⟨"chicken rice".data, mkRat 7 2, (550, 700)⟩
        follow_up_questions := followUps } ∧
    analyseValid [⟨"mee goreng".data, 4⟩, ⟨"nasi lemak".data, 4⟩] =
      { cheapest := [⟨"noodle goreng".data, 4, (350, 700)⟩,
                     ⟨"rice lemak".data, 4, (350, 700)⟩]
        most_expensive := [⟨"noodle goreng".data, 4, (350, 700)⟩,
                           ⟨"rice lemak".data, 4, (350, 700)⟩]
        healthiest := some ⟨"noodle goreng".data, 4, (350, 700)⟩
        most_filling := some ⟨"noodle goreng".data, 4, (350, 700)⟩
        follow_up_questions := followUps } :=
  ⟨by decide, by decide⟩

/-- Claim C10: a request whose body is not valid JSON reaches the catch-all
and is answered 500 with the generic server-error body; this is the only
way a non-400 failure arises — every parsed body is answered 400 or
200, and the handler is total (it never throws uncaught). -/
theorem claim10_server_error_only_for_bad_json :
    POST (Except.error ()) = ⟨500, RespBody.serverError⟩ ∧
    (∀ b : Except Unit JValue, (POST b).status = 500 ↔ b = Except.error ()) ∧
    (∀ j : JValue, (POST (Except.ok j)).status = 400 ∨
      (POST (Except.ok j)).status = 200) := by
  refine ⟨rfl, ?_, ?_⟩
  · intro b
    cases b with
    | error u => cases u; simp [POST]
    | ok j =>
      cases hp : parseItems j with
      | error issues => simp [POST, hp]
      | ok items => simp [POST, hp]
  · intro j
    cases hp : parseItems j with
    | error issues => exact Or.inl (by simp [POST, hp])
    | ok items => exact Or.inr (by simp [POST, hp])

theorem priceBad_parseItem (i : Nat) (x : JValue) (hb : priceBad x = true) :
    (parseItem i x).1 ≠ [] := by
  cases x with
  | obj fs =>
    simp only [priceBad] at hb
    simp only [parseItem]
    rcases hl : lookupField fs "price".data with _ | v
    · rw [hl] at hb
      rcases hn : lookupField fs "name".data with _ | w
      · simp [hn]
      · cases w <;> simp [hn]
    · rw [hl] at hb
      cases v with
      | num n =>
        cases n with
        | num q =>
          simp only [decide_eq_true_eq] at hb
          rcases hn : lookupField fs "name".data with _ | w
          · simp [hn, hb]
          · cases w <;> simp [hn, hb]
        | nan =>
          rcases hn : lookupField fs "name".data with _ | w
          · simp [hn]
          · cases w <;> simp [hn]
        | inf =>
          rcases hn : lookupField fs "name".data with _ | w
          · simp [hn]
          · cases w <;> simp [hn]
        | neginf =>
          rcases hn : lookupField fs "name".data with _ | w
          · simp [hn]
          · cases w <;> simp [hn]
      | null =>
        rcases hn : lookupField fs "name".data with _ | w
        · simp [hn]
        · cases w <;> simp [hn]
      | bool b =>
        rcases hn : lookupField fs "name".data with _ | w
        · simp [hn]
        · cases w <;> simp [hn]
      | str s =>
        rcases hn : lookupField fs "name".data with _ | w
        · simp [hn]
        · cases w <;> simp [hn]
      | arr es =>
        rcases hn : lookupField fs "name".data with _ | w
        · simp [hn]
        · cases w <;> simp [hn]
      | obj fs2 =>
        rcases hn : lookupField fs "name".data with _ | w
        · simp [hn]
        · cases w <;> simp [hn]
  | null => simp [parseItem]
  | bool b => simp [parseItem]
  | num n => simp [parseItem]
  | str s => simp [parseItem]
  | arr es => simp [parseItem]

theorem mem_enumFrom_of_mem (xs : List JValue) (x : JValue) (hx : x ∈ xs) :
    ∀ k, ∃ i, (i, x) ∈ xs.enumFrom k := by
  induction xs with
  | nil => cases hx
  | cons a l ih =>
    intro k
    rcases List.mem_cons.mp hx with rfl | hmem
    · exact ⟨k, List.mem_cons_self _ _⟩
    · obtain ⟨i, hi⟩ := ih hmem (k + 1)
      exact ⟨i, List.mem_cons_of_mem _ hi⟩

/-- Claim C5: for every request body whose `items` member is an empty
array, or contains an element with a negative, non-finite or missing
price, the parse rejects with a non-empty structured issue list and the
endpoint answers 400 with those issues and no analysis output. -/
theorem claim5_validation_rejects (fs : List (List Char × JValue)) (xs : List JValue)
    (hitems : lookupField fs "items".data = some (JValue.arr xs))
    (hbad : xs = [] ∨ ∃ x ∈ xs, priceBad x = true) :
    ∃ issues : List Issue, issues ≠ [] ∧
      parseItems (JValue.obj fs) = Except.error issues ∧
      POST (Except.ok (JValue.obj fs)) = ⟨400, RespBody.invalid issues⟩ := by
  have hne : ((if xs.length < 1 then [Issue.arrayTooSmall] else []) ++
      (((xs.enum).map (fun e => parseItem e.1 e.2)).map Prod.fst).flatten) ≠ [] := by
    rcases hbad with rfl | ⟨x, hx, hb⟩
    · simp
    · obtain ⟨i, hi⟩ := mem_enumFrom_of_mem xs x hx 0
      have hiss : (parseItem i x).1 ≠ [] := priceBad_parseItem i x hb
      obtain ⟨iss, hissmem⟩ := List.exists_mem_of_ne_nil _ hiss
      apply List.ne_nil_of_mem (a := iss)
      apply List.mem_append_right
      refine List.mem_flatten.mpr ⟨(parseItem i x).1, ?_, hissmem⟩
      refine List.mem_map.mpr ⟨parseItem i x, ?_, rfl⟩
      refine List.mem_map.mpr ⟨(i, x), ?_, rfl⟩
      exact hi
  cases hiss : ((if xs.length < 1 then [Issue.arrayTooSmall] else []) ++
      (((xs.enum).map (fun e => parseItem e.1 e.2)).map Prod.fst).flatten) with
  | nil => exact absurd hiss hne
  | cons i0 is =>
    have hparse : parseItems (JValue.obj fs) = Except.error (i0 :: is) := by
      simp only [parseItems, hitems]
      rw [hiss]
    exact ⟨i0 :: is, List.cons_ne_nil _ _, hparse, by simp [POST, hparse]⟩

/-- Witness for C5 at a concrete item with price `-1`. -/
theorem claim5_witness :
    ∃ issues : List Issue, issues ≠ [] ∧
      parseItems (JValue.obj [("items".data, JValue.arr
        [JValue.obj [("name".data, JValue.str "a".data),
                     ("price".data, JValue.num (JNum.num (-1)))]])]) =
        Except.error issues ∧
      POST (Except.ok (JValue.obj [("items".data, JValue.arr
        [JValue.obj [("name".data, JValue.str "a".data),
                     ("price".data, JValue.num (JNum.num (-1)))]])])) =
        ⟨400, RespBody.invalid issues⟩ :=
  claim5_validation_rejects
    [("items".data, JValue.arr
      [JValue.obj [("name".data, JValue.str "a".data),
                   ("price".data, JValue.num (JNum.num (-1)))]])]
    [JValue.obj [("name".data, JValue.str "a".data),
                 ("price".data, JValue.num (JNum.num (-1)))]]
    rfl
    (Or.inr ⟨JValue.obj [("name".data, JValue.str "a".data),
                         ("price".data, JValue.num (JNum.num (-1)))],
      List.mem_singleton.mpr rfl, by decide⟩)
/-- Claim C6: the calorie estimate is the first-match-wins evaluation of
the fixed nine-rule priority table, with fallback range 350 to 700 when no
pattern matches; in particular "mystery snack" gets the fallback. -/
theorem claim6_first_match_wins :
    (∀ name : List Char, estimateCalories name = estimateCaloriesTable name) ∧
    estimateCalories "mystery snack".data = (350, 700) := by
  refine ⟨fun name => ?_, by decide⟩
  cases h1 : testPat chickenRicePats (canonicaliseName name) with
  | true => simp [estimateCalories, estimateCaloriesTable, calorieRules, List.find?, h1]
  | false =>
    cases h2 : testPat fishSoupPats (canonicaliseName name) with
    | true => simp [estimateCalories, estimateCaloriesTable, calorieRules, List.find?, h1, h2]
    | false =>
      cases h3 : testPat yongTauFooPats (canonicaliseName name) with
      | true => simp [estimateCalories, estimateCaloriesTable, calorieRules, List.find?, h1, h2, h3]
      | false =>
        cases h4 : testPat banMianPats (canonicaliseName name) with
        | true => simp [estimateCalories, estimateCaloriesTable, calorieRules, List.find?, h1, h2, h3, h4]
        | false =>
          cases h5 : testPat laksaPats (canonicaliseName name) with
          | true => simp [estimateCalories, estimateCaloriesTable, calorieRules, List.find?, h1, h2, h3, h4, h5]
          | false =>
            cases h6 : testPat charKwayTeowPats (canonicaliseName name) with
            | true => simp [estimateCalories, estimateCaloriesTable, calorieRules, List.find?, h1, h2, h3, h4, h5, h6]
            | false =>
              cases h7 : testPat economicRicePats (canonicaliseName name) with
              | true => simp [estimateCalories, estimateCaloriesTable, calorieRules, List.find?, h1, h2, h3, h4, h5, h6, h7]
              | false =>
                cases h8 : testPat fishballNoodlePats (canonicaliseName name) with
                | true => simp [estimateCalories, estimateCaloriesTable, calorieRules, List.find?, h1, h2, h3, h4, h5, h6, h7, h8]
                | false =>
                  cases h9 : testPat duckRicePats (canonicaliseName name) with
                  | true => simp [estimateCalories, estimateCaloriesTable, calorieRules, List.find?, h1, h2, h3, h4, h5, h6, h7, h8, h9]
                  | false =>
                    simp [estimateCalories, estimateCaloriesTable, calorieRules, List.find?, h1, h2, h3, h4, h5, h6, h7, h8, h9]


theorem replaceMeeGo_no_occ : ∀ (p : Bool) (s : List Char),
    hasOccMeeGo p s = false → replaceMeeGo p s = s := by
  intro p s
  induction p, s using replaceMeeGo.induct with
  | case1 p => intro _; rfl
  | case2 p c1 => intro _; rfl
  | case3 p c1 c2 => intro _; rfl
  | case4 p c1 c2 c3 rest h ih =>
    intro hno
    rw [hasOccMeeGo, if_pos h] at hno
    exact absurd hno (by simp)
  | case5 p c1 c2 c3 rest h ih =>
    intro hno
    rw [hasOccMeeGo, if_neg h] at hno
    rw [replaceMeeGo, if_neg h, ih hno]

theorem replaceNasiGo_no_occ : ∀ (p : Bool) (s : List Char),
    hasOccNasiGo p s = false → replaceNasiGo p s = s := by
  intro p s
  induction p, s using replaceNasiGo.induct with
  | case1 p => intro _; rfl
  | case2 p c1 => intro _; rfl
  | case3 p c1 c2 => intro _; rfl
  | case4 p c1 c2 c3 => intro _; rfl
  | case5 p c1 c2 c3 c4 rest h ih =>
    intro hno
    rw [hasOccNasiGo, if_pos h] at hno
    exact absurd hno (by simp)
  | case6 p c1 c2 c3 c4 rest h ih =>
    intro hno
    rw [hasOccNasiGo, if_neg h] at hno
    rw [replaceNasiGo, if_neg h, ih hno]

theorem replaceBeeHoonGo_no_occ : ∀ (p : Bool) (s : List Char),
    hasOccBeeHoonGo p s = false → replaceBeeHoonGo p s = s := by
  intro p s
  induction p, s using replaceBeeHoonGo.induct with
  | case1 p => intro _; rfl
  | case2 p c1 => intro _; rfl
  | case3 p c1 c2 => intro _; rfl
  | case4 p c1 c2 c3 => intro _; rfl
  | case5 p c1 c2 c3 c4 => intro _; rfl
  | case6 p c1 c2 c3 c4 c5 => intro _; rfl
  | case7 p c1 c2 c3 c4 c5 c6 => intro _; rfl
  | case8 p c1 c2 c3 c4 c5 c6 c7 => intro _; rfl
  | case9 p c1 c2 c3 c4 c5 c6 c7 c8 rest h ih =>
    intro hno
    rw [hasOccBeeHoonGo, if_pos h] at hno
    exact absurd hno (by simp)
  | case10 p c1 c2 c3 c4 c5 c6 c7 c8 rest h ih =>
    intro hno
    rw [hasOccBeeHoonGo, if_neg h] at hno
    rw [replaceBeeHoonGo, if_neg h, ih hno]

/-- Claim C8: the lexical substitutions fire only on whole-word
(boundary-delimited) occurrences — a name whose lower-casing has no such
occurrence passes through the substitutions unchanged — and every name in
the output (`cheapest`, `most_expensive`, `healthiest`, `most_filling`) is
the canonicalised form of some input item's name. -/
theorem claim8_word_boundary_and_canonical_output :
    (∀ x : List Char,
      hasOccMeeGo false (x.map toLowerCh) = false →
      hasOccNasiGo false (x.map toLowerCh) = false →
      hasOccBeeHoonGo false (x.map toLowerCh) = false →
      canonicaliseName x = trimWs (collapseWs (x.map toLowerCh))) ∧
    (∀ items : List Item,
      (∀ it ∈ (analyseValid items).cheapest,
        ∃ src ∈ items, it.name = canonicaliseName src.name) ∧
      (∀ it ∈ (analyseValid items).most_expensive,
        ∃ src ∈ items, it.name = canonicaliseName src.name) ∧
      (∀ h, (analyseValid items).healthiest = some h →
        ∃ src ∈ items, h.name = canonicaliseName src.name) ∧
      (∀ f, (analyseValid items).most_filling = some f →
        ∃ src ∈ items, f.name = canonicaliseName src.name)) := by
  constructor
  · intro x hm hn hb
    unfold canonicaliseName replaceMee replaceNasi replaceBeeHoon
    rw [replaceMeeGo_no_occ false _ hm, replaceNasiGo_no_occ false _ hn,
      replaceBeeHoonGo_no_occ false _ hb]
  · intro items
    have hsub : ∀ it ∈ items.map toCanon,
        ∃ src ∈ items, it.name = canonicaliseName src.name := by
      intro it hit
      obtain ⟨src, hsrc, heq⟩ := List.mem_map.mp hit
      exact ⟨src, hsrc, by rw [← heq]; rfl⟩
    refine ⟨?_, ?_, ?_, ?_⟩
    · intro it hit
      refine hsub it ?_
      have : (analyseValid items).cheapest =
          (items.map toCanon).filter
            (fun it => priceEqOpt it.price ((items.map toCanon).foldl stepAgg initAgg).minPrice) := rfl
      rw [this] at hit
      exact List.mem_of_mem_filter hit
    · intro it hit
      refine hsub it ?_
      have : (analyseValid items).most_expensive =
          (items.map toCanon).filter
            (fun it => priceEqOpt it.price ((items.map toCanon).foldl stepAgg initAgg).maxPrice) := rfl
      rw [this] at hit
      exact List.mem_of_mem_filter hit
    · intro h hH
      cases items with
      | nil => exact Option.noConfusion hH
      | cons i0 its =>
        obtain ⟨h', heqh, _, ⟨pre, post, hdec, _⟩, _⟩ :=
          hFold_some (its.map toCanon) (toCanon i0)
        have hH' : (analyseValid (i0 :: its)).healthiest = some h' := by
          simp only [analyseValid]
          rw [foldAgg_fields]
          simp only [List.map_cons, List.foldl_cons]
          exact heqh
        rw [hH'] at hH
        injection hH with hh
        subst hh
        refine hsub h' ?_
        rw [List.map_cons, hdec]
        exact List.mem_append_right pre (List.mem_cons_self _ _)
    · intro f hF
      cases items with
      | nil => exact Option.noConfusion hF
      | cons i0 its =>
        obtain ⟨f', heqf, _, ⟨pre, post, hdec, _⟩, _⟩ :=
          fFold_some (its.map toCanon) (toCanon i0)
        have hF' : (analyseValid (i0 :: its)).most_filling = some f' := by
          simp only [analyseValid]
          rw [foldAgg_fields]
          simp only [List.map_cons, List.foldl_cons]
          exact heqf
        rw [hF'] at hF
        injection hF with hf
        subst hf
        refine hsub f' ?_
        rw [List.map_cons, hdec]
        exact List.mem_append_right pre (List.mem_cons_self _ _)

/-- Witness for C8: "homee" contains "mee" only as a substring of a larger
word, so canonicalisation only lower-cases it; and the output names of a
concrete analysis are canonicalised input names. -/
theorem claim8_witness :
    canonicaliseName "homee".data =
      trimWs (collapseWs ("homee".data.map toLowerCh)) ∧
    (∀ it ∈ (analyseValid [⟨"Mee Goreng".data, 4⟩]).cheapest,
      ∃ src ∈ [(⟨"Mee Goreng".data, 4⟩ : Item)],
        it.name = canonicaliseName src.name) :=
  ⟨claim8_word_boundary_and_canonical_output.1 "homee".data
      (by decide) (by decide) (by decide),
   (claim8_word_boundary_and_canonical_output.2 [⟨"Mee Goreng".data, 4⟩]).1⟩

theorem toLowerCh_idem (c : Char) : toLowerCh (toLowerCh c) = toLowerCh c := by
  by_cases h : 65 ≤ c.toNat ∧ c.toNat ≤ 90
  · have h1 : toLowerCh c = Char.ofNat (c.toNat + 32) := by rw [toLowerCh, if_pos h]
    rw [h1]
    obtain ⟨ha, hb⟩ := h
    generalize hg : c.toNat = n at ha hb ⊢
    interval_cases n <;> decide
  · have h1 : toLowerCh c = c := by rw [toLowerCh, if_neg h]
    rw [h1, h1]

theorem isWS_toLowerCh (c : Char) : isWS (toLowerCh c) = isWS c := by
  by_cases h : 65 ≤ c.toNat ∧ c.toNat ≤ 90
  · obtain ⟨ha, hb⟩ := h
    have hc : isWS c = false := by
      cases hw : isWS c
      · rfl
      · exfalso
        have hlist : c = ' ' ∨ c = '\t' ∨ c = '\n' ∨ c = '\r' := by
          simpa [isWS, or_assoc] using hw
        rcases hlist with rfl | rfl | rfl | rfl <;> exact absurd ha (by decide)
    rw [hc]
    have h1 : toLowerCh c = Char.ofNat (c.toNat + 32) := by
      rw [toLowerCh, if_pos ⟨ha, hb⟩]
    rw [h1]
    generalize hg : c.toNat = n at ha hb ⊢
    interval_cases n <;> decide
  · have h1 : toLowerCh c = c := by rw [toLowerCh, if_neg h]
    rw [h1]

theorem toLowerCh_eq_space (c : Char) : (toLowerCh c = ' ') ↔ (c = ' ') := by
  by_cases h : 65 ≤ c.toNat ∧ c.toNat ≤ 90
  · obtain ⟨ha, hb⟩ := h
    have h1 : toLowerCh c = Char.ofNat (c.toNat + 32) := by
      rw [toLowerCh, if_pos ⟨ha, hb⟩]
    rw [h1]
    constructor
    · intro hsp
      exfalso
      generalize hg : c.toNat = n at ha hb hsp
      interval_cases n <;> exact absurd hsp (by decide)
    · intro hsp
      subst hsp
      exact absurd ha (by decide)
  · have h1 : toLowerCh c = c := by rw [toLowerCh, if_neg h]
    rw [h1]

theorem allLower_map (s : List Char) : allLower (s.map toLowerCh) = true := by
  induction s with
  | nil => rfl
  | cons c s ih =>
    simp only [allLower, List.map_cons, List.all_cons, Bool.and_eq_true] at *
    exact ⟨by simp [toLowerCh_idem], ih⟩

theorem map_id_of_allLower (s : List Char) (h : allLower s = true) :
    s.map toLowerCh = s := by
  induction s with
  | nil => rfl
  | cons c s ih =>
    simp only [allLower, List.all_cons, Bool.and_eq_true, decide_eq_true_eq] at h
    simp only [List.map_cons, h.1]
    rw [ih]
    simp only [allLower]
    exact h.2

theorem spacesOnly_map (s : List Char) (h : spacesOnly s = true) :
    spacesOnly (s.map toLowerCh) = true := by
  induction s with
  | nil => rfl
  | cons c s ih =>
    simp only [spacesOnly, List.map_cons, List.all_cons, Bool.and_eq_true] at *
    refine ⟨?_, ih h.2⟩
    have h1 := h.1
    rw [isWS_toLowerCh]
    cases hws : isWS c
    · simp
    · rw [hws] at h1
      simp only [Bool.not_true, Bool.false_or, decide_eq_true_eq] at h1 ⊢
      simp [toLowerCh_eq_space, h1]

theorem noDouble_map (s : List Char) (h : noDoubleSpace s = true) :
    noDoubleSpace (s.map toLowerCh) = true := by
  induction s with
  | nil => rfl
  | cons c s ih =>
    cases s with
    | nil => rfl
    | cons d r =>
      simp only [noDoubleSpace, List.map_cons, Bool.and_eq_true] at h ⊢
      refine ⟨?_, ih h.2⟩
      have h1 := h.1
      simp only [Bool.not_eq_true', decide_eq_false_iff_not] at h1 ⊢
      intro hcd
      exact h1 ⟨(toLowerCh_eq_space c).mp hcd.1, (toLowerCh_eq_space d).mp hcd.2⟩

theorem headNotWS_map (s : List Char) (h : headNotWS s = true) :
    headNotWS (s.map toLowerCh) = true := by
  cases s with
  | nil => rfl
  | cons c r =>
    simp only [headNotWS, List.map_cons] at *
    rw [isWS_toLowerCh]
    exact h

theorem lastNotWS_map (s : List Char) (h : lastNotWS s = true) :
    lastNotWS (s.map toLowerCh) = true := by
  induction s with
  | nil => rfl
  | cons c s ih =>
    cases s with
    | nil =>
      simp only [lastNotWS, List.map_cons, List.map_nil] at *
      rw [isWS_toLowerCh]
      exact h
    | cons d r =>
      simp only [lastNotWS, List.map_cons] at *
      exact ih h

theorem noDouble_cons_cons (c d : Char) (r : List Char) :
    noDoubleSpace (c :: d :: r) =
      (!(decide (c = ' ' ∧ d = ' ')) && noDoubleSpace (d :: r)) := rfl

theorem noDouble_tail (c : Char) (t : List Char) (h : noDoubleSpace (c :: t) = true) :
    noDoubleSpace t = true := by
  cases t with
  | nil => rfl
  | cons d r =>
    rw [noDouble_cons_cons] at h
    simp only [Bool.and_eq_true] at h
    exact h.2

theorem spacesOnly_tail (c : Char) (t : List Char) (h : spacesOnly (c :: t) = true) :
    spacesOnly t = true := by
  simp only [spacesOnly, List.all_cons, Bool.and_eq_true] at h
  exact h.2

theorem spacesOnly_head (c : Char) (t : List Char) (h : spacesOnly (c :: t) = true)
    (hws : isWS c = true) : c = ' ' := by
  simp only [spacesOnly, List.all_cons, Bool.and_eq_true] at h
  have h1 := h.1
  rw [hws] at h1
  simpa using h1

theorem collapseWsGo_id : ∀ (s : List Char) (p : Bool),
    spacesOnly s = true → noDoubleSpace s = true →
    (p = true → headNotWS s = true) → collapseWsGo p s = s := by
  intro s
  induction s with
  | nil => intro p _ _ _; rfl
  | cons c rest ih =>
    intro p hsp hnd hp
    by_cases hws : isWS c = true
    · have hc : c = ' ' := spacesOnly_head c rest hsp hws
      have hpf : p = false := by
        cases p
        · rfl
        · exfalso
          have hcon := hp rfl
          simp only [headNotWS] at hcon
          rw [hws] at hcon
          exact Bool.noConfusion hcon
      subst hpf
      subst hc
      have hnws : headNotWS rest = true := by
        cases rest with
        | nil => rfl
        | cons d r =>
          simp only [headNotWS]
          rw [noDouble_cons_cons] at hnd
          simp only [Bool.and_eq_true] at hnd
          have h1 := hnd.1
          simp only [Bool.not_eq_true', decide_eq_false_iff_not] at h1
          have hd : d ≠ ' ' := by
            intro hdd
            subst hdd
            simp at h1
          cases hwd : isWS d
          · rfl
          · exact absurd (spacesOnly_head d r (spacesOnly_tail _ _ hsp) hwd) hd
      rw [collapseWsGo, if_pos hws]
      rw [ih true (spacesOnly_tail _ _ hsp) (noDouble_tail _ _ hnd) (fun _ => hnws)]
      rfl
    · have hwsf : isWS c = false := by
        cases hx : isWS c
        · rfl
        · exact absurd hx hws
      rw [collapseWsGo, if_neg hws]
      rw [ih false (spacesOnly_tail _ _ hsp) (noDouble_tail _ _ hnd)
        (fun h => Bool.noConfusion h)]

theorem collapseWs_id (s : List Char) (hsp : spacesOnly s = true)
    (hnd : noDoubleSpace s = true) : collapseWs s = s :=
  collapseWsGo_id s false hsp hnd (fun h => Bool.noConfusion h)

theorem dropWhileWs_id (s : List Char) (h : headNotWS s = true) :
    s.dropWhile (fun c => isWS c) = s := by
  cases s with
  | nil => rfl
  | cons c r =>
    simp only [headNotWS, Bool.not_eq_true'] at h
    rw [List.dropWhile_cons_of_neg]
    simp [h]

theorem dropTrailingWs_id (s : List Char) (h : lastNotWS s = true) :
    dropTrailingWs s = s := by
  induction s with
  | nil => rfl
  | cons c rest ih =>
    cases rest with
    | nil =>
      simp only [lastNotWS, Bool.not_eq_true'] at h
      simp [dropTrailingWs, h]
    | cons d r =>
      simp only [lastNotWS] at h
      have hr := ih h
      rw [dropTrailingWs]
      rw [hr]
      simp

theorem trimWs_id (s : List Char) (hh : headNotWS s = true)
    (hl : lastNotWS s = true) : trimWs s = s := by
  unfold trimWs
  rw [dropWhileWs_id s hh, dropTrailingWs_id s hl]

theorem lastNotWS_cons_ne (c : Char) (l : List Char) (h : l ≠ []) :
    lastNotWS (c :: l) = lastNotWS l := by
  cases l with
  | nil => exact absurd rfl h
  | cons d r => rfl

theorem lastNotWS_append (u t : List Char) (h : t ≠ []) :
    lastNotWS (u ++ t) = lastNotWS t := by
  induction u with
  | nil => rfl
  | cons c u' ih =>
    have hne : u' ++ t ≠ [] := by
      intro hcon
      exact h (List.append_eq_nil.mp hcon).2
    rw [List.cons_append, lastNotWS_cons_ne _ _ hne, ih]

theorem replaceMeeGo_all (P : Char → Bool) (hrep : noodleStr.all P = true) :
    ∀ (p : Bool) (s : List Char), s.all P = true → (replaceMeeGo p s).all P = true := by
  intro p s
  induction p, s using replaceMeeGo.induct with
  | case1 p => exact fun h => h
  | case2 p c1 => exact fun h => h
  | case3 p c1 c2 => exact fun h => h
  | case4 p c1 c2 c3 rest h ih =>
    intro hall
    rw [replaceMeeGo, if_pos h, List.all_append]
    simp only [List.all_cons, Bool.and_eq_true] at hall
    simp only [Bool.and_eq_true]
    exact ⟨hrep, ih hall.2.2.2⟩
  | case5 p c1 c2 c3 rest h ih =>
    intro hall
    rw [replaceMeeGo, if_neg h]
    simp only [List.all_cons, Bool.and_eq_true] at hall ⊢
    exact ⟨hall.1, ih (by
      simp only [List.all_cons, Bool.and_eq_true]
      exact ⟨hall.2.1, hall.2.2.1, hall.2.2.2⟩)⟩

theorem replaceMeeGo_headIsSpace (p : Bool) (s : List Char) :
    headIsSpace (replaceMeeGo p s) = true → headIsSpace s = true := by
  induction p, s using replaceMeeGo.induct with
  | case1 p => exact fun h => h
  | case2 p c1 => exact fun h => h
  | case3 p c1 c2 => exact fun h => h
  | case4 p c1 c2 c3 rest h ih =>
    intro hh
    rw [replaceMeeGo, if_pos h] at hh
    exact Bool.noConfusion hh
  | case5 p c1 c2 c3 rest h ih =>
    intro hh
    rw [replaceMeeGo, if_neg h] at hh
    exact hh

theorem noDouble_noodle_append (t : List Char) :
    noDoubleSpace (noodleStr ++ t) = noDoubleSpace t := by
  cases t with
  | nil => rfl
  | cons d r => rfl

theorem replaceMeeGo_noDouble : ∀ (p : Bool) (s : List Char),
    noDoubleSpace s = true → noDoubleSpace (replaceMeeGo p s) = true := by
  intro p s
  induction p, s using replaceMeeGo.induct with
  | case1 p => exact fun h => h
  | case2 p c1 => exact fun h => h
  | case3 p c1 c2 => exact fun h => h
  | case4 p c1 c2 c3 rest h ih =>
    intro hnd
    rw [replaceMeeGo, if_pos h, noDouble_noodle_append]
    exact ih (noDouble_tail _ _ (noDouble_tail _ _ (noDouble_tail _ _ hnd)))
  | case5 p c1 c2 c3 rest h ih =>
    intro hnd
    rw [replaceMeeGo, if_neg h]
    have htl : noDoubleSpace (c2 :: c3 :: rest) = true := noDouble_tail _ _ hnd
    have hout := ih htl
    cases hX : replaceMeeGo (isWordChar c1) (c2 :: c3 :: rest) with
    | nil => rfl
    | cons d r =>
      rw [hX] at hout
      rw [noDouble_cons_cons]
      simp only [Bool.and_eq_true]
      refine ⟨?_, hout⟩
      simp only [Bool.not_eq_true', decide_eq_false_iff_not]
      intro hcd
      obtain ⟨hc1, hd⟩ := hcd
      have hspX : headIsSpace (replaceMeeGo (isWordChar c1) (c2 :: c3 :: rest)) = true := by
        rw [hX]
        simp [headIsSpace, hd]
      have hsp2 : headIsSpace (c2 :: c3 :: rest) = true :=
        replaceMeeGo_headIsSpace _ _ hspX
      simp only [headIsSpace, decide_eq_true_eq] at hsp2
      rw [noDouble_cons_cons] at hnd
      simp only [Bool.and_eq_true, Bool.not_eq_true', decide_eq_false_iff_not] at hnd
      exact hnd.1 ⟨hc1, hsp2⟩

theorem replaceMeeGo_headNotWS (p : Bool) (s : List Char) :
    headNotWS s = true → headNotWS (replaceMeeGo p s) = true := by
  induction p, s using replaceMeeGo.induct with
  | case1 p => exact fun h => h
  | case2 p c1 => exact fun h => h
  | case3 p c1 c2 => exact fun h => h
  | case4 p c1 c2 c3 rest h ih =>
    intro _
    rw [replaceMeeGo, if_pos h]
    rfl
  | case5 p c1 c2 c3 rest h ih =>
    intro hh
    rw [replaceMeeGo, if_neg h]
    exact hh

theorem replaceMeeGo_ne_nil (p : Bool) (s : List Char) (h : s ≠ []) :
    replaceMeeGo p s ≠ [] := by
  induction p, s using replaceMeeGo.induct with
  | case1 p => exact absurd rfl h
  | case2 p c1 => simp [replaceMeeGo]
  | case3 p c1 c2 => simp [replaceMeeGo]
  | case4 p c1 c2 c3 rest hcond ih =>
    rw [replaceMeeGo, if_pos hcond]
    simp [noodleStr]
  | case5 p c1 c2 c3 rest hcond ih =>
    rw [replaceMeeGo, if_neg hcond]
    simp

theorem replaceMeeGo_lastNotWS : ∀ (p : Bool) (s : List Char),
    lastNotWS s = true → lastNotWS (replaceMeeGo p s) = true := by
  intro p s
  induction p, s using replaceMeeGo.induct with
  | case1 p => exact fun h => h
  | case2 p c1 => exact fun h => h
  | case3 p c1 c2 => exact fun h => h
  | case4 p c1 c2 c3 rest h ih =>
    intro hl
    rw [replaceMeeGo, if_pos h]
    cases rest with
    | nil => decide
    | cons r0 rs =>
      have hrest : lastNotWS (r0 :: rs) = true := by
        simpa only [lastNotWS] using hl
      have hne : replaceMeeGo true (r0 :: rs) ≠ [] :=
        replaceMeeGo_ne_nil _ _ (by simp)
      rw [lastNotWS_append _ _ hne]
      exact ih hrest
  | case5 p c1 c2 c3 rest h ih =>
    intro hl
    rw [replaceMeeGo, if_neg h]
    have hne : replaceMeeGo (isWordChar c1) (c2 :: c3 :: rest) ≠ [] :=
      replaceMeeGo_ne_nil _ _ (by simp)
    rw [lastNotWS_cons_ne _ _ hne]
    exact ih (by simpa only [lastNotWS] using hl)

theorem replaceMeeGo_headIsWord (p : Bool) (s : List Char) :
    headIsWord (replaceMeeGo p s) = headIsWord s := by
  induction p, s using replaceMeeGo.induct with
  | case1 p => rfl
  | case2 p c1 => rfl
  | case3 p c1 c2 => rfl
  | case4 p c1 c2 c3 rest h ih =>
    rw [replaceMeeGo, if_pos h]
    obtain ⟨h1, _⟩ := h
    subst h1
    rfl
  | case5 p c1 c2 c3 rest h ih =>
    rw [replaceMeeGo, if_neg h]
    rfl

theorem replaceMeeGo_cons_inv (p : Bool) (s : List Char) (c : Char) (Y : List Char)
    (hc : c ≠ 'n') (heq : replaceMeeGo p s = c :: Y) :
    ∃ s', s = c :: s' ∧ Y = replaceMeeGo (isWordChar c) s' := by
  induction p, s using replaceMeeGo.induct with
  | case1 p => exact List.noConfusion heq
  | case2 p c1 =>
    injection heq with h1 h2
    subst h1
    exact ⟨[], rfl, by rw [← h2]; rfl⟩
  | case3 p c1 c2 =>
    injection heq with h1 h2
    subst h1
    exact ⟨[c2], rfl, by rw [← h2]; rfl⟩
  | case4 p c1 c2 c3 rest h ih =>
    rw [replaceMeeGo, if_pos h] at heq
    injection heq with h1 h2
    exact absurd h1.symm hc
  | case5 p c1 c2 c3 rest h ih =>
    rw [replaceMeeGo, if_neg h] at heq
    injection heq with h1 h2
    subst h1
    exact ⟨c2 :: c3 :: rest, rfl, h2.symm⟩

theorem replaceNasiGo_all (P : Char → Bool) (hrep : riceStr.all P = true) :
    ∀ (p : Bool) (s : List Char), s.all P = true → (replaceNasiGo p s).all P = true := by
  intro p s
  induction p, s using replaceNasiGo.induct with
  | case1 p => exact fun h => h
  | case2 p c1 => exact fun h => h
  | case3 p c1 c2 => exact fun h => h
  | case4 p c1 c2 c3 => exact fun h => h
  | case5 p c1 c2 c3 c4 rest h ih =>
    intro hall
    rw [replaceNasiGo, if_pos h, List.all_append]
    simp only [List.all_cons, Bool.and_eq_true] at hall
    simp only [Bool.and_eq_true]
    refine ⟨hrep, ih ?_⟩
    tauto
  | case6 p c1 c2 c3 c4 rest h ih =>
    intro hall
    rw [replaceNasiGo, if_neg h]
    simp only [List.all_cons, Bool.and_eq_true] at hall ⊢
    refine ⟨hall.1, ih ?_⟩
    simp only [List.all_cons, Bool.and_eq_true]
    tauto

theorem replaceNasiGo_headIsSpace (p : Bool) (s : List Char) :
    headIsSpace (replaceNasiGo p s) = true → headIsSpace s = true := by
  induction p, s using replaceNasiGo.induct with
  | case1 p => exact fun h => h
  | case2 p c1 => exact fun h => h
  | case3 p c1 c2 => exact fun h => h
  | case4 p c1 c2 c3 => exact fun h => h
  | case5 p c1 c2 c3 c4 rest h ih =>
    intro hh
    rw [replaceNasiGo, if_pos h] at hh
    exact Bool.noConfusion hh
  | case6 p c1 c2 c3 c4 rest h ih =>
    intro hh
    rw [replaceNasiGo, if_neg h] at hh
    exact hh

theorem noDouble_rice_append (t : List Char) :
    noDoubleSpace (riceStr ++ t) = noDoubleSpace t := by
  cases t with
  | nil => rfl
  | cons d r => rfl

theorem replaceNasiGo_noDouble : ∀ (p : Bool) (s : List Char),
    noDoubleSpace s = true → noDoubleSpace (replaceNasiGo p s) = true := by
  intro p s
  induction p, s using replaceNasiGo.induct with
  | case1 p => exact fun h => h
  | case2 p c1 => exact fun h => h
  | case3 p c1 c2 => exact fun h => h
  | case4 p c1 c2 c3 => exact fun h => h
  | case5 p c1 c2 c3 c4 rest h ih =>
    intro hnd
    rw [replaceNasiGo, if_pos h, noDouble_rice_append]
    exact ih (noDouble_tail _ _ (noDouble_tail _ _ (noDouble_tail _ _ (noDouble_tail _ _ hnd))))
  | case6 p c1 c2 c3 c4 rest h ih =>
    intro hnd
    rw [replaceNasiGo, if_neg h]
    have htl : noDoubleSpace (c2 :: c3 :: c4 :: rest) = true := noDouble_tail _ _ hnd
    have hout := ih htl
    cases hX : replaceNasiGo (isWordChar c1) (c2 :: c3 :: c4 :: rest) with
    | nil => rfl
    | cons d r =>
      rw [hX] at hout
      rw [noDouble_cons_cons]
      simp only [Bool.and_eq_true]
      refine ⟨?_, hout⟩
      simp only [Bool.not_eq_true', decide_eq_false_iff_not]
      intro hcd
      obtain ⟨hc1, hd⟩ := hcd
      have hspX : headIsSpace (replaceNasiGo (isWordChar c1) (c2 :: c3 :: c4 :: rest)) = true := by
        rw [hX]
        simp [headIsSpace, hd]
      have hsp2 : headIsSpace (c2 :: c3 :: c4 :: rest) = true :=
        replaceNasiGo_headIsSpace _ _ hspX
      simp only [headIsSpace, decide_eq_true_eq] at hsp2
      rw [noDouble_cons_cons] at hnd
      simp only [Bool.and_eq_true, Bool.not_eq_true', decide_eq_false_iff_not] at hnd
      exact hnd.1 ⟨hc1, hsp2⟩

theorem replaceNasiGo_headNotWS (p : Bool) (s : List Char) :
    headNotWS s = true → headNotWS (replaceNasiGo p s) = true := by
  induction p, s using replaceNasiGo.induct with
  | case1 p => exact fun h => h
  | case2 p c1 => exact fun h => h
  | case3 p c1 c2 => exact fun h => h
  | case4 p c1 c2 c3 => exact fun h => h
  | case5 p c1 c2 c3 c4 rest h ih =>
    intro _
    rw [replaceNasiGo, if_pos h]
    rfl
  | case6 p c1 c2 c3 c4 rest h ih =>
    intro hh
    rw [replaceNasiGo, if_neg h]
    exact hh

theorem replaceNasiGo_ne_nil (p : Bool) (s : List Char) (h : s ≠ []) :
    replaceNasiGo p s ≠ [] := by
  induction p, s using replaceNasiGo.induct with
  | case1 p => exact absurd rfl h
  | case2 p c1 => simp [replaceNasiGo]
  | case3 p c1 c2 => simp [replaceNasiGo]
  | case4 p c1 c2 c3 => simp [replaceNasiGo]
  | case5 p c1 c2 c3 c4 rest hcond ih =>
    rw [replaceNasiGo, if_pos hcond]
    simp [riceStr]
  | case6 p c1 c2 c3 c4 rest hcond ih =>
    rw [replaceNasiGo, if_neg hcond]
    simp

theorem replaceNasiGo_lastNotWS : ∀ (p : Bool) (s : List Char),
    lastNotWS s = true → lastNotWS (replaceNasiGo p s) = true := by
  intro p s
  induction p, s using replaceNasiGo.induct with
  | case1 p => exact fun h => h
  | case2 p c1 => exact fun h => h
  | case3 p c1 c2 => exact fun h => h
  | case4 p c1 c2 c3 => exact fun h => h
  | case5 p c1 c2 c3 c4 rest h ih =>
    intro hl
    rw [replaceNasiGo, if_pos h]
    cases rest with
    | nil => decide
    | cons r0 rs =>
      have hrest : lastNotWS (r0 :: rs) = true := by
        simpa only [lastNotWS] using hl
      have hne : replaceNasiGo true (r0 :: rs) ≠ [] :=
        replaceNasiGo_ne_nil _ _ (by simp)
      rw [lastNotWS_append _ _ hne]
      exact ih hrest
  | case6 p c1 c2 c3 c4 rest h ih =>
    intro hl
    rw [replaceNasiGo, if_neg h]
    have hne : replaceNasiGo (isWordChar c1) (c2 :: c3 :: c4 :: rest) ≠ [] :=
      replaceNasiGo_ne_nil _ _ (by simp)
    rw [lastNotWS_cons_ne _ _ hne]
    exact ih (by simpa only [lastNotWS] using hl)

theorem replaceNasiGo_headIsWord (p : Bool) (s : List Char) :
    headIsWord (replaceNasiGo p s) = headIsWord s := by
  induction p, s using replaceNasiGo.induct with
  | case1 p => rfl
  | case2 p c1 => rfl
  | case3 p c1 c2 => rfl
  | case4 p c1 c2 c3 => rfl
  | case5 p c1 c2 c3 c4 rest h ih =>
    rw [replaceNasiGo, if_pos h]
    obtain ⟨h1, _⟩ := h
    subst h1
    rfl
  | case6 p c1 c2 c3 c4 rest h ih =>
    rw [replaceNasiGo, if_neg h]
    rfl

theorem replaceNasiGo_cons_inv (p : Bool) (s : List Char) (c : Char) (Y : List Char)
    (hc : c ≠ 'r') (heq : replaceNasiGo p s = c :: Y) :
    ∃ s', s = c :: s' ∧ Y = replaceNasiGo (isWordChar c) s' := by
  induction p, s using replaceNasiGo.induct with
  | case1 p => exact List.noConfusion heq
  | case2 p c1 =>
    injection heq with h1 h2
    subst h1
    exact ⟨[], rfl, by rw [← h2]; rfl⟩
  | case3 p c1 c2 =>
    injection heq with h1 h2
    subst h1
    exact ⟨[c2], rfl, by rw [← h2]; rfl⟩
  | case4 p c1 c2 c3 =>
    injection heq with h1 h2
    subst h1
    exact ⟨[c2, c3], rfl, by rw [← h2]; rfl⟩
  | case5 p c1 c2 c3 c4 rest h ih =>
    rw [replaceNasiGo, if_pos h] at heq
    injection heq with h1 h2
    exact absurd h1.symm hc
  | case6 p c1 c2 c3 c4 rest h ih =>
    rw [replaceNasiGo, if_neg h] at heq
    injection heq with h1 h2
    subst h1
    exact ⟨c2 :: c3 :: c4 :: rest, rfl, h2.symm⟩

theorem replaceBeeHoonGo_all (P : Char → Bool) (hrep : riceVermStr.all P = true) :
    ∀ (p : Bool) (s : List Char), s.all P = true → (replaceBeeHoonGo p s).all P = true := by
  intro p s
  induction p, s using replaceBeeHoonGo.induct with
  | case1 p => exact fun h => h
  | case2 p c1 => exact fun h => h
  | case3 p c1 c2 => exact fun h => h
  | case4 p c1 c2 c3 => exact fun h => h
  | case5 p c1 c2 c3 c4 => exact fun h => h
  | case6 p c1 c2 c3 c4 c5 => exact fun h => h
  | case7 p c1 c2 c3 c4 c5 c6 => exact fun h => h
  | case8 p c1 c2 c3 c4 c5 c6 c7 => exact fun h => h
  | case9 p c1 c2 c3 c4 c5 c6 c7 c8 rest h ih =>
    intro hall
    rw [replaceBeeHoonGo, if_pos h, List.all_append]
    simp only [List.all_cons, Bool.and_eq_true] at hall
    simp only [Bool.and_eq_true]
    refine ⟨hrep, ih ?_⟩
    tauto
  | case10 p c1 c2 c3 c4 c5 c6 c7 c8 rest h ih =>
    intro hall
    rw [replaceBeeHoonGo, if_neg h]
    simp only [List.all_cons, Bool.and_eq_true] at hall ⊢
    refine ⟨hall.1, ih ?_⟩
    simp only [List.all_cons, Bool.and_eq_true]
    tauto

theorem replaceBeeHoonGo_headIsSpace (p : Bool) (s : List Char) :
    headIsSpace (replaceBeeHoonGo p s) = true → headIsSpace s = true := by
  induction p, s using replaceBeeHoonGo.induct with
  | case1 p => exact fun h => h
  | case2 p c1 => exact fun h => h
  | case3 p c1 c2 => exact fun h => h
  | case4 p c1 c2 c3 => exact fun h => h
  | case5 p c1 c2 c3 c4 => exact fun h => h
  | case6 p c1 c2 c3 c4 c5 => exact fun h => h
  | case7 p c1 c2 c3 c4 c5 c6 => exact fun h => h
  | case8 p c1 c2 c3 c4 c5 c6 c7 => exact fun h => h
  | case9 p c1 c2 c3 c4 c5 c6 c7 c8 rest h ih =>
    intro hh
    rw [replaceBeeHoonGo, if_pos h] at hh
    exact Bool.noConfusion hh
  | case10 p c1 c2 c3 c4 c5 c6 c7 c8 rest h ih =>
    intro hh
    rw [replaceBeeHoonGo, if_neg h] at hh
    exact hh

theorem noDouble_riceVerm_append (t : List Char) :
    noDoubleSpace (riceVermStr ++ t) = noDoubleSpace t := by
  cases t with
  | nil => rfl
  | cons d r => rfl

theorem replaceBeeHoonGo_noDouble : ∀ (p : Bool) (s : List Char),
    noDoubleSpace s = true → noDoubleSpace (replaceBeeHoonGo p s) = true := by
  intro p s
  induction p, s using replaceBeeHoonGo.induct with
  | case1 p => exact fun h => h
  | case2 p c1 => exact fun h => h
  | case3 p c1 c2 => exact fun h => h
  | case4 p c1 c2 c3 => exact fun h => h
  | case5 p c1 c2 c3 c4 => exact fun h => h
  | case6 p c1 c2 c3 c4 c5 => exact fun h => h
  | case7 p c1 c2 c3 c4 c5 c6 => exact fun h => h
  | case8 p c1 c2 c3 c4 c5 c6 c7 => exact fun h => h
  | case9 p c1 c2 c3 c4 c5 c6 c7 c8 rest h ih =>
    intro hnd
    rw [replaceBeeHoonGo, if_pos h, noDouble_riceVerm_append]
    exact ih (noDouble_tail _ _ (noDouble_tail _ _ (noDouble_tail _ _ (noDouble_tail _ _ (noDouble_tail _ _ (noDouble_tail _ _ (noDouble_tail _ _ (noDouble_tail _ _ hnd))))))))
  | case10 p c1 c2 c3 c4 c5 c6 c7 c8 rest h ih =>
    intro hnd
    rw [replaceBeeHoonGo, if_neg h]
    have htl : noDoubleSpace (c2 :: c3 :: c4 :: c5 :: c6 :: c7 :: c8 :: rest) = true := noDouble_tail _ _ hnd
    have hout := ih htl
    cases hX : replaceBeeHoonGo (isWordChar c1) (c2 :: c3 :: c4 :: c5 :: c6 :: c7 :: c8 :: rest) with
    | nil => rfl
    | cons d r =>
      rw [hX] at hout
      rw [noDouble_cons_cons]
      simp only [Bool.and_eq_true]
      refine ⟨?_, hout⟩
      simp only [Bool.not_eq_true', decide_eq_false_iff_not]
      intro hcd
      obtain ⟨hc1, hd⟩ := hcd
      have hspX : headIsSpace (replaceBeeHoonGo (isWordChar c1) (c2 :: c3 :: c4 :: c5 :: c6 :: c7 :: c8 :: rest)) = true := by
        rw [hX]
        simp [headIsSpace, hd]
      have hsp2 : headIsSpace (c2 :: c3 :: c4 :: c5 :: c6 :: c7 :: c8 :: rest) = true :=
        replaceBeeHoonGo_headIsSpace _ _ hspX
      simp only [headIsSpace, decide_eq_true_eq] at hsp2
      rw [noDouble_cons_cons] at hnd
      simp only [Bool.and_eq_true, Bool.not_eq_true', decide_eq_false_iff_not] at hnd
      exact hnd.1 ⟨hc1, hsp2⟩

theorem replaceBeeHoonGo_headNotWS (p : Bool) (s : List Char) :
    headNotWS s = true → headNotWS (replaceBeeHoonGo p s) = true := by
  induction p, s using replaceBeeHoonGo.induct with
  | case1 p => exact fun h => h
  | case2 p c1 => exact fun h => h
  | case3 p c1 c2 => exact fun h => h
  | case4 p c1 c2 c3 => exact fun h => h
  | case5 p c1 c2 c3 c4 => exact fun h => h
  | case6 p c1 c2 c3 c4 c5 => exact fun h => h
  | case7 p c1 c2 c3 c4 c5 c6 => exact fun h => h
  | case8 p c1 c2 c3 c4 c5 c6 c7 => exact fun h => h
  | case9 p c1 c2 c3 c4 c5 c6 c7 c8 rest h ih =>
    intro _
    rw [replaceBeeHoonGo, if_pos h]
    rfl
  | case10 p c1 c2 c3 c4 c5 c6 c7 c8 rest h ih =>
    intro hh
    rw [replaceBeeHoonGo, if_neg h]
    exact hh

theorem replaceBeeHoonGo_ne_nil (p : Bool) (s : List Char) (h : s ≠ []) :
    replaceBeeHoonGo p s ≠ [] := by
  induction p, s using replaceBeeHoonGo.induct with
  | case1 p => exact absurd rfl h
  | case2 p c1 => simp [replaceBeeHoonGo]
  | case3 p c1 c2 => simp [replaceBeeHoonGo]
  | case4 p c1 c2 c3 => simp [replaceBeeHoonGo]
  | case5 p c1 c2 c3 c4 => simp [replaceBeeHoonGo]
  | case6 p c1 c2 c3 c4 c5 => simp [replaceBeeHoonGo]
  | case7 p c1 c2 c3 c4 c5 c6 => simp [replaceBeeHoonGo]
  | case8 p c1 c2 c3 c4 c5 c6 c7 => simp [replaceBeeHoonGo]
  | case9 p c1 c2 c3 c4 c5 c6 c7 c8 rest hcond ih =>
    rw [replaceBeeHoonGo, if_pos hcond]
    simp [riceVermStr]
  | case10 p c1 c2 c3 c4 c5 c6 c7 c8 rest hcond ih =>
    rw [replaceBeeHoonGo, if_neg hcond]
    simp

theorem replaceBeeHoonGo_lastNotWS : ∀ (p : Bool) (s : List Char),
    lastNotWS s = true → lastNotWS (replaceBeeHoonGo p s) = true := by
  intro p s
  induction p, s using replaceBeeHoonGo.induct with
  | case1 p => exact fun h => h
  | case2 p c1 => exact fun h => h
  | case3 p c1 c2 => exact fun h => h
  | case4 p c1 c2 c3 => exact fun h => h
  | case5 p c1 c2 c3 c4 => exact fun h => h
  | case6 p c1 c2 c3 c4 c5 => exact fun h => h
  | case7 p c1 c2 c3 c4 c5 c6 => exact fun h => h
  | case8 p c1 c2 c3 c4 c5 c6 c7 => exact fun h => h
  | case9 p c1 c2 c3 c4 c5 c6 c7 c8 rest h ih =>
    intro hl
    rw [replaceBeeHoonGo, if_pos h]
    cases rest with
    | nil => decide
    | cons r0 rs =>
      have hrest : lastNotWS (r0 :: rs) = true := by
        simpa only [lastNotWS] using hl
      have hne : replaceBeeHoonGo true (r0 :: rs) ≠ [] :=
        replaceBeeHoonGo_ne_nil _ _ (by simp)
      rw [lastNotWS_append _ _ hne]
      exact ih hrest
  | case10 p c1 c2 c3 c4 c5 c6 c7 c8 rest h ih =>
    intro hl
    rw [replaceBeeHoonGo, if_neg h]
    have hne : replaceBeeHoonGo (isWordChar c1) (c2 :: c3 :: c4 :: c5 :: c6 :: c7 :: c8 :: rest) ≠ [] :=
      replaceBeeHoonGo_ne_nil _ _ (by simp)
    rw [lastNotWS_cons_ne _ _ hne]
    exact ih (by simpa only [lastNotWS] using hl)

theorem replaceBeeHoonGo_headIsWord (p : Bool) (s : List Char) :
    headIsWord (replaceBeeHoonGo p s) = headIsWord s := by
  induction p, s using replaceBeeHoonGo.induct with
  | case1 p => rfl
  | case2 p c1 => rfl
  | case3 p c1 c2 => rfl
  | case4 p c1 c2 c3 => rfl
  | case5 p c1 c2 c3 c4 => rfl
  | case6 p c1 c2 c3 c4 c5 => rfl
  | case7 p c1 c2 c3 c4 c5 c6 => rfl
  | case8 p c1 c2 c3 c4 c5 c6 c7 => rfl
  | case9 p c1 c2 c3 c4 c5 c6 c7 c8 rest h ih =>
    rw [replaceBeeHoonGo, if_pos h]
    obtain ⟨h1, _⟩ := h
    subst h1
    rfl
  | case10 p c1 c2 c3 c4 c5 c6 c7 c8 rest h ih =>
    rw [replaceBeeHoonGo, if_neg h]
    rfl

theorem replaceBeeHoonGo_cons_inv (p : Bool) (s : List Char) (c : Char) (Y : List Char)
    (hc : c ≠ 'r') (heq : replaceBeeHoonGo p s = c :: Y) :
    ∃ s', s = c :: s' ∧ Y = replaceBeeHoonGo (isWordChar c) s' := by
  induction p, s using replaceBeeHoonGo.induct with
  | case1 p => exact List.noConfusion heq
  | case2 p c1 =>
    injection heq with h1 h2
    subst h1
    exact ⟨[], rfl, by rw [← h2]; rfl⟩
  | case3 p c1 c2 =>
    injection heq with h1 h2
    subst h1
    exact ⟨[c2], rfl, by rw [← h2]; rfl⟩
  | case4 p c1 c2 c3 =>
    injection heq with h1 h2
    subst h1
    exact ⟨[c2, c3], rfl, by rw [← h2]; rfl⟩
  | case5 p c1 c2 c3 c4 =>
    injection heq with h1 h2
    subst h1
    exact ⟨[c2, c3, c4], rfl, by rw [← h2]; rfl⟩
  | case6 p c1 c2 c3 c4 c5 =>
    injection heq with h1 h2
    subst h1
    exact ⟨[c2, c3, c4, c5], rfl, by rw [← h2]; rfl⟩
  | case7 p c1 c2 c3 c4 c5 c6 =>
    injection heq with h1 h2
    subst h1
    exact ⟨[c2, c3, c4, c5, c6], rfl, by rw [← h2]; rfl⟩
  | case8 p c1 c2 c3 c4 c5 c6 c7 =>
    injection heq with h1 h2
    subst h1
    exact ⟨[c2, c3, c4, c5, c6, c7], rfl, by rw [← h2]; rfl⟩
  | case9 p c1 c2 c3 c4 c5 c6 c7 c8 rest h ih =>
    rw [replaceBeeHoonGo, if_pos h] at heq
    injection heq with h1 h2
    exact absurd h1.symm hc
  | case10 p c1 c2 c3 c4 c5 c6 c7 c8 rest h ih =>
    rw [replaceBeeHoonGo, if_neg h] at heq
    injection heq with h1 h2
    subst h1
    exact ⟨c2 :: c3 :: c4 :: c5 :: c6 :: c7 :: c8 :: rest, rfl, h2.symm⟩

theorem hasOccMeeGo_cons (p : Bool) (c : Char) (X : List Char) :
    hasOccMeeGo p (c :: X) =
      (headMatchMee p (c :: X) || hasOccMeeGo (isWordChar c) X) := by
  cases X with
  | nil => rfl
  | cons d X' =>
    cases X' with
    | nil => rfl
    | cons e X'' =>
      by_cases hc : c = 'm' ∧ d = 'e' ∧ e = 'e' ∧ p = false ∧ headIsWord X'' = false
      · rw [hasOccMeeGo, if_pos hc, headMatchMee]
        simp [hc]
      · rw [hasOccMeeGo, if_neg hc, headMatchMee]
        simp [hc]

theorem headMatchMee_ne (p : Bool) (c : Char) (X : List Char) (hc : c ≠ 'm') :
    headMatchMee p (c :: X) = false := by
  cases X with
  | nil => rfl
  | cons d X' =>
    cases X' with
    | nil => rfl
    | cons e X'' =>
      rw [headMatchMee]
      simp [hc]

theorem headMatchMee_true (p : Bool) (s : List Char) (h : headMatchMee p s = true) :
    ∃ rest, s = 'm' :: 'e' :: 'e' :: rest ∧ p = false ∧ headIsWord rest = false := by
  cases s with
  | nil => exact Bool.noConfusion h
  | cons c1 X =>
    cases X with
    | nil => exact Bool.noConfusion h
    | cons c2 X' =>
      cases X' with
      | nil => exact Bool.noConfusion h
      | cons c3 rest =>
        rw [headMatchMee] at h
        simp only [decide_eq_true_eq] at h
        obtain ⟨h1, h2, h3, h4, h5⟩ := h
        subst h1; subst h2; subst h3
        exact ⟨rest, rfl, h4, h5⟩

theorem hasOccMee_noodle_append (p : Bool) (T : List Char) :
    hasOccMeeGo p (noodleStr ++ T) = hasOccMeeGo true T := by
  rcases T with _ | ⟨d1, _ | ⟨d2, T2⟩⟩ <;> rfl

theorem hasOccMee_replaceMee : ∀ (p : Bool) (s : List Char),
    hasOccMeeGo p (replaceMeeGo p s) = false := by
  intro p s
  induction p, s using replaceMeeGo.induct with
  | case1 p => rfl
  | case2 p c1 => rfl
  | case3 p c1 c2 => rfl
  | case4 p c1 c2 c3 rest h ih =>
    rw [replaceMeeGo, if_pos h, hasOccMee_noodle_append]
    exact ih
  | case5 p c1 c2 c3 rest h ih =>
    rw [replaceMeeGo, if_neg h]
    have hhm : headMatchMee p
        (c1 :: replaceMeeGo (isWordChar c1) (c2 :: c3 :: rest)) = false := by
      cases hhm' : headMatchMee p
          (c1 :: replaceMeeGo (isWordChar c1) (c2 :: c3 :: rest)) with
      | false => rfl
      | true =>
        exfalso
        obtain ⟨R, hR, hp, hword⟩ := headMatchMee_true _ _ hhm'
        injection hR with hc1 hX
        obtain ⟨t1, ht1, hY1⟩ := replaceMeeGo_cons_inv _ _ _ _ (by decide) hX
        obtain ⟨t2, ht2, hY2⟩ := replaceMeeGo_cons_inv _ _ _ _ (by decide) hY1.symm
        injection ht1 with hc2 ht1'
        rw [ht2] at ht1'
        injection ht1' with hc3 hrest
        rw [hY2, replaceMeeGo_headIsWord] at hword
        exact h ⟨hc1, hc2, hc3, hp, by rw [hrest]; exact hword⟩
    rw [hasOccMeeGo_cons, hhm, Bool.false_or]
    exact ih

theorem hasOccMee_rice_append (p : Bool) (T : List Char) :
    hasOccMeeGo p (riceStr ++ T) = hasOccMeeGo true T := by
  rcases T with _ | ⟨d1, _ | ⟨d2, T2⟩⟩ <;> rfl

theorem hasOccMee_replaceNasi : ∀ (p : Bool) (s : List Char),
    hasOccMeeGo p s = false → hasOccMeeGo p (replaceNasiGo p s) = false := by
  intro p s
  induction p, s using replaceNasiGo.induct with
  | case1 p => exact fun h => h
  | case2 p c1 => exact fun h => h
  | case3 p c1 c2 => exact fun h => h
  | case4 p c1 c2 c3 => exact fun h => h
  | case5 p c1 c2 c3 c4 rest h ih =>
    intro hno
    rw [replaceNasiGo, if_pos h, hasOccMee_rice_append]
    apply ih
    obtain ⟨h1, h2, h3, h4, hp, hw⟩ := h
    subst h1; subst h2; subst h3; subst h4
    rw [hasOccMeeGo_cons, hasOccMeeGo_cons, hasOccMeeGo_cons, hasOccMeeGo_cons] at hno
    simp only [headMatchMee_ne _ _ _ (by decide : ('n' : Char) ≠ 'm'),
      headMatchMee_ne _ _ _ (by decide : ('a' : Char) ≠ 'm'),
      headMatchMee_ne _ _ _ (by decide : ('s' : Char) ≠ 'm'),
      headMatchMee_ne _ _ _ (by decide : ('i' : Char) ≠ 'm'),
      Bool.false_or] at hno
    exact hno
  | case6 p c1 c2 c3 c4 rest h ih =>
    intro hno
    rw [replaceNasiGo, if_neg h]
    rw [hasOccMeeGo_cons] at hno
    obtain ⟨hnoh, hnot⟩ := Bool.or_eq_false_iff.mp hno
    have hout := ih hnot
    have hhm : headMatchMee p
        (c1 :: replaceNasiGo (isWordChar c1) (c2 :: c3 :: c4 :: rest)) = false := by
      cases hhm' : headMatchMee p
          (c1 :: replaceNasiGo (isWordChar c1) (c2 :: c3 :: c4 :: rest)) with
      | false => rfl
      | true =>
        exfalso
        obtain ⟨R, hR, hp, hword⟩ := headMatchMee_true _ _ hhm'
        injection hR with hc1 hX
        obtain ⟨t1, ht1, hY1⟩ := replaceNasiGo_cons_inv _ _ _ _ (by decide) hX
        obtain ⟨t2, ht2, hY2⟩ := replaceNasiGo_cons_inv _ _ _ _ (by decide) hY1.symm
        injection ht1 with hc2 ht1'
        rw [ht2] at ht1'
        injection ht1' with hc3 hrest
        rw [hY2, replaceNasiGo_headIsWord] at hword
        subst hc1; subst hc2; subst hc3; subst hp
        rw [headMatchMee] at hnoh
        rw [← hrest] at hword
        simp [hword] at hnoh
    rw [hasOccMeeGo_cons, hhm, Bool.false_or]
    exact hout


theorem hasOccNasiGo_cons (p : Bool) (c : Char) (X : List Char) :
    hasOccNasiGo p (c :: X) =
      (headMatchNasi p (c :: X) || hasOccNasiGo (isWordChar c) X) := by
  cases X with
  | nil => rfl
  | cons d1 X1 =>
    cases X1 with
    | nil => rfl
    | cons d2 X2 =>
      cases X2 with
      | nil => rfl
      | cons d3 X3 =>
        by_cases hc : c = 'n' ∧ d1 = 'a' ∧ d2 = 's' ∧ d3 = 'i' ∧ p = false ∧ headIsWord X3 = false
        · rw [hasOccNasiGo, if_pos hc, headMatchNasi]
          simp [hc]
        · rw [hasOccNasiGo, if_neg hc, headMatchNasi]
          simp [hc]

theorem hasOccBeeHoonGo_cons (p : Bool) (c : Char) (X : List Char) :
    hasOccBeeHoonGo p (c :: X) =
      (headMatchBeeHoon p (c :: X) || hasOccBeeHoonGo (isWordChar c) X) := by
  cases X with
  | nil => rfl
  | cons d1 X1 =>
    cases X1 with
    | nil => rfl
    | cons d2 X2 =>
      cases X2 with
      | nil => rfl
      | cons d3 X3 =>
        cases X3 with
        | nil => rfl
        | cons d4 X4 =>
          cases X4 with
          | nil => rfl
          | cons d5 X5 =>
            cases X5 with
            | nil => rfl
            | cons d6 X6 =>
              cases X6 with
              | nil => rfl
              | cons d7 X7 =>
                by_cases hc : c = 'b' ∧ d1 = 'e' ∧ d2 = 'e' ∧ d3 = ' ' ∧ d4 = 'h' ∧ d5 = 'o' ∧ d6 = 'o' ∧ d7 = 'n' ∧ p = false ∧ headIsWord X7 = false
                · rw [hasOccBeeHoonGo, if_pos hc, headMatchBeeHoon]
                  simp [hc]
                · rw [hasOccBeeHoonGo, if_neg hc, headMatchBeeHoon]
                  simp [hc]

theorem headMatchNasi_true (p : Bool) (s : List Char) (h : headMatchNasi p s = true) :
    ∃ rest, s = 'n' :: 'a' :: 's' :: 'i' :: rest ∧ p = false ∧ headIsWord rest = false := by
  cases s with
  | nil => exact Bool.noConfusion h
  | cons e1 Y1 =>
    cases Y1 with
    | nil => exact Bool.noConfusion h
    | cons e2 Y2 =>
      cases Y2 with
      | nil => exact Bool.noConfusion h
      | cons e3 Y3 =>
        cases Y3 with
        | nil => exact Bool.noConfusion h
        | cons e4 rest =>
          rw [headMatchNasi] at h
          simp only [decide_eq_true_eq] at h
          obtain ⟨g1, g2, g3, g4, gp, gw⟩ := h
          subst g1
          subst g2
          subst g3
          subst g4
          exact ⟨rest, rfl, gp, gw⟩

theorem headMatchBeeHoon_true (p : Bool) (s : List Char) (h : headMatchBeeHoon p s = true) :
    ∃ rest, s = 'b' :: 'e' :: 'e' :: ' ' :: 'h' :: 'o' :: 'o' :: 'n' :: rest ∧ p = false ∧ headIsWord rest = false := by
  cases s with
  | nil => exact Bool.noConfusion h
  | cons e1 Y1 =>
    cases Y1 with
    | nil => exact Bool.noConfusion h
    | cons e2 Y2 =>
      cases Y2 with
      | nil => exact Bool.noConfusion h
      | cons e3 Y3 =>
        cases Y3 with
        | nil => exact Bool.noConfusion h
        | cons e4 Y4 =>
          cases Y4 with
          | nil => exact Bool.noConfusion h
          | cons e5 Y5 =>
            cases Y5 with
            | nil => exact Bool.noConfusion h
            | cons e6 Y6 =>
              cases Y6 with
              | nil => exact Bool.noConfusion h
              | cons e7 Y7 =>
                cases Y7 with
                | nil => exact Bool.noConfusion h
                | cons e8 rest =>
                  rw [headMatchBeeHoon] at h
                  simp only [decide_eq_true_eq] at h
                  obtain ⟨g1, g2, g3, g4, g5, g6, g7, g8, gp, gw⟩ := h
                  subst g1
                  subst g2
                  subst g3
                  subst g4
                  subst g5
                  subst g6
                  subst g7
                  subst g8
                  exact ⟨rest, rfl, gp, gw⟩

theorem hasOccMeeGo_riceVermStr_append (p : Bool) (T : List Char) :
    hasOccMeeGo p (riceVermStr ++ T) = hasOccMeeGo true T := by
  rcases T with _ | ⟨e1, _ | ⟨e2, _⟩⟩ <;> rfl

theorem hasOccNasiGo_riceStr_append (p : Bool) (T : List Char) :
    hasOccNasiGo p (riceStr ++ T) = hasOccNasiGo true T := by
  rcases T with _ | ⟨e1, _ | ⟨e2, _ | ⟨e3, _⟩⟩⟩ <;> rfl

theorem hasOccNasiGo_riceVermStr_append (p : Bool) (T : List Char) :
    hasOccNasiGo p (riceVermStr ++ T) = hasOccNasiGo true T := by
  rcases T with _ | ⟨e1, _ | ⟨e2, _ | ⟨e3, _⟩⟩⟩ <;> rfl

theorem hasOccBeeHoonGo_riceVermStr_append (p : Bool) (T : List Char) :
    hasOccBeeHoonGo p (riceVermStr ++ T) = hasOccBeeHoonGo true T := by
  rcases T with _ | ⟨e1, _ | ⟨e2, _ | ⟨e3, _ | ⟨e4, _ | ⟨e5, _ | ⟨e6, _ | ⟨e7, _⟩⟩⟩⟩⟩⟩⟩ <;> rfl

theorem hasOccNasiGo_replaceNasiGo_kill : ∀ (p : Bool) (s : List Char),
    hasOccNasiGo p (replaceNasiGo p s) = false := by
  intro p s
  induction p, s using replaceNasiGo.induct with
  | case1 p => rfl
  | case2 p c1 => rfl
  | case3 p c1 c2 => rfl
  | case4 p c1 c2 c3 => rfl
  | case5 p c1 c2 c3 c4 rest h ih =>
    rw [replaceNasiGo, if_pos h, hasOccNasiGo_riceStr_append]
    exact ih
  | case6 p c1 c2 c3 c4 rest h ih =>
    rw [replaceNasiGo, if_neg h]
    have hhm : headMatchNasi p
        (c1 :: replaceNasiGo (isWordChar c1) (c2 :: c3 :: c4 :: rest)) = false := by
      cases hhm' : headMatchNasi p
          (c1 :: replaceNasiGo (isWordChar c1) (c2 :: c3 :: c4 :: rest)) with
      | false => rfl
      | true =>
        exfalso
        obtain ⟨R, hR, hp, hword⟩ := headMatchNasi_true _ _ hhm'
        injection hR with hc1 hX
        obtain ⟨t1, ht1, hY1⟩ := replaceNasiGo_cons_inv _ _ _ _ (by decide) hX
        obtain ⟨t2, ht2, hY2⟩ := replaceNasiGo_cons_inv _ _ _ _ (by decide) hY1.symm
        obtain ⟨t3, ht3, hY3⟩ := replaceNasiGo_cons_inv _ _ _ _ (by decide) hY2.symm
        injection ht1 with hc2 ht1'
        rw [ht2] at ht1'
        injection ht1' with hc3 ht2'
        rw [ht3] at ht2'
        injection ht2' with hc4 ht3'
        rw [hY3, replaceNasiGo_headIsWord] at hword
        exact h ⟨hc1, hc2, hc3, hc4, hp, by rw [ht3']; exact hword⟩
    rw [hasOccNasiGo_cons, hhm, Bool.false_or]
    exact ih

theorem hasOccBeeHoonGo_replaceBeeHoonGo_kill : ∀ (p : Bool) (s : List Char),
    hasOccBeeHoonGo p (replaceBeeHoonGo p s) = false := by
  intro p s
  induction p, s using replaceBeeHoonGo.induct with
  | case1 p => rfl
  | case2 p c1 => rfl
  | case3 p c1 c2 => rfl
  | case4 p c1 c2 c3 => rfl
  | case5 p c1 c2 c3 c4 => rfl
  | case6 p c1 c2 c3 c4 c5 => rfl
  | case7 p c1 c2 c3 c4 c5 c6 => rfl
  | case8 p c1 c2 c3 c4 c5 c6 c7 => rfl
  | case9 p c1 c2 c3 c4 c5 c6 c7 c8 rest h ih =>
    rw [replaceBeeHoonGo, if_pos h, hasOccBeeHoonGo_riceVermStr_append]
    exact ih
  | case10 p c1 c2 c3 c4 c5 c6 c7 c8 rest h ih =>
    rw [replaceBeeHoonGo, if_neg h]
    have hhm : headMatchBeeHoon p
        (c1 :: replaceBeeHoonGo (isWordChar c1) (c2 :: c3 :: c4 :: c5 :: c6 :: c7 :: c8 :: rest)) = false := by
      cases hhm' : headMatchBeeHoon p
          (c1 :: replaceBeeHoonGo (isWordChar c1) (c2 :: c3 :: c4 :: c5 :: c6 :: c7 :: c8 :: rest)) with
      | false => rfl
      | true =>
        exfalso
        obtain ⟨R, hR, hp, hword⟩ := headMatchBeeHoon_true _ _ hhm'
        injection hR with hc1 hX
        obtain ⟨t1, ht1, hY1⟩ := replaceBeeHoonGo_cons_inv _ _ _ _ (by decide) hX
        obtain ⟨t2, ht2, hY2⟩ := replaceBeeHoonGo_cons_inv _ _ _ _ (by decide) hY1.symm
        obtain ⟨t3, ht3, hY3⟩ := replaceBeeHoonGo_cons_inv _ _ _ _ (by decide) hY2.symm
        obtain ⟨t4, ht4, hY4⟩ := replaceBeeHoonGo_cons_inv _ _ _ _ (by decide) hY3.symm
        obtain ⟨t5, ht5, hY5⟩ := replaceBeeHoonGo_cons_inv _ _ _ _ (by decide) hY4.symm
        obtain ⟨t6, ht6, hY6⟩ := replaceBeeHoonGo_cons_inv _ _ _ _ (by decide) hY5.symm
        obtain ⟨t7, ht7, hY7⟩ := replaceBeeHoonGo_cons_inv _ _ _ _ (by decide) hY6.symm
        injection ht1 with hc2 ht1'
        rw [ht2] at ht1'
        injection ht1' with hc3 ht2'
        rw [ht3] at ht2'
        injection ht2' with hc4 ht3'
        rw [ht4] at ht3'
        injection ht3' with hc5 ht4'
        rw [ht5] at ht4'
        injection ht4' with hc6 ht5'
        rw [ht6] at ht5'
        injection ht5' with hc7 ht6'
        rw [ht7] at ht6'
        injection ht6' with hc8 ht7'
        rw [hY7, replaceBeeHoonGo_headIsWord] at hword
        exact h ⟨hc1, hc2, hc3, hc4, hc5, hc6, hc7, hc8, hp, by rw [ht7']; exact hword⟩
    rw [hasOccBeeHoonGo_cons, hhm, Bool.false_or]
    exact ih

theorem hasOccMeeGo_replaceBeeHoonGo_cross : ∀ (p : Bool) (s : List Char),
    hasOccMeeGo p s = false → hasOccMeeGo p (replaceBeeHoonGo p s) = false := by
  intro p s
  induction p, s using replaceBeeHoonGo.induct with
  | case1 p => exact fun h => h
  | case2 p c1 => exact fun h => h
  | case3 p c1 c2 => exact fun h => h
  | case4 p c1 c2 c3 => exact fun h => h
  | case5 p c1 c2 c3 c4 => exact fun h => h
  | case6 p c1 c2 c3 c4 c5 => exact fun h => h
  | case7 p c1 c2 c3 c4 c5 c6 => exact fun h => h
  | case8 p c1 c2 c3 c4 c5 c6 c7 => exact fun h => h
  | case9 p c1 c2 c3 c4 c5 c6 c7 c8 rest h ih =>
    intro hno
    rw [replaceBeeHoonGo, if_pos h, hasOccMeeGo_riceVermStr_append]
    apply ih
    obtain ⟨hx1, hx2, hx3, hx4, hx5, hx6, hx7, hx8, hp, hw⟩ := h
    subst hx1
    subst hx2
    subst hx3
    subst hx4
    subst hx5
    subst hx6
    subst hx7
    subst hx8
    rw [hasOccMeeGo_cons, hasOccMeeGo_cons, hasOccMeeGo_cons, hasOccMeeGo_cons, hasOccMeeGo_cons, hasOccMeeGo_cons, hasOccMeeGo_cons, hasOccMeeGo_cons] at hno
    obtain ⟨_, hno⟩ := Bool.or_eq_false_iff.mp hno
    obtain ⟨_, hno⟩ := Bool.or_eq_false_iff.mp hno
    obtain ⟨_, hno⟩ := Bool.or_eq_false_iff.mp hno
    obtain ⟨_, hno⟩ := Bool.or_eq_false_iff.mp hno
    obtain ⟨_, hno⟩ := Bool.or_eq_false_iff.mp hno
    obtain ⟨_, hno⟩ := Bool.or_eq_false_iff.mp hno
    obtain ⟨_, hno⟩ := Bool.or_eq_false_iff.mp hno
    obtain ⟨_, hno⟩ := Bool.or_eq_false_iff.mp hno
    exact hno
  | case10 p c1 c2 c3 c4 c5 c6 c7 c8 rest h ih =>
    intro hno
    rw [replaceBeeHoonGo, if_neg h]
    rw [hasOccMeeGo_cons] at hno
    obtain ⟨hnoh, hnot⟩ := Bool.or_eq_false_iff.mp hno
    have hout := ih hnot
    have hhm : headMatchMee p
        (c1 :: replaceBeeHoonGo (isWordChar c1) (c2 :: c3 :: c4 :: c5 :: c6 :: c7 :: c8 :: rest)) = false := by
      cases hhm' : headMatchMee p
          (c1 :: replaceBeeHoonGo (isWordChar c1) (c2 :: c3 :: c4 :: c5 :: c6 :: c7 :: c8 :: rest)) with
      | false => rfl
      | true =>
        exfalso
        obtain ⟨R, hR, hp, hword⟩ := headMatchMee_true _ _ hhm'
        injection hR with hc1 hX
        obtain ⟨t1, ht1, hY1⟩ := replaceBeeHoonGo_cons_inv _ _ _ _ (by decide) hX
        obtain ⟨t2, ht2, hY2⟩ := replaceBeeHoonGo_cons_inv _ _ _ _ (by decide) hY1.symm
        injection ht1 with hc2 ht1'
        rw [ht2] at ht1'
        injection ht1' with hc3 ht2'
        rw [hY2, replaceBeeHoonGo_headIsWord] at hword
        subst hc1; subst hc2; subst hc3; subst hp
        rw [headMatchMee] at hnoh
        rw [← ht2'] at hword
        simp [hword] at hnoh
    rw [hasOccMeeGo_cons, hhm, Bool.false_or]
    exact hout

theorem hasOccNasiGo_replaceBeeHoonGo_cross : ∀ (p : Bool) (s : List Char),
    hasOccNasiGo p s = false → hasOccNasiGo p (replaceBeeHoonGo p s) = false := by
  intro p s
  induction p, s using replaceBeeHoonGo.induct with
  | case1 p => exact fun h => h
  | case2 p c1 => exact fun h => h
  | case3 p c1 c2 => exact fun h => h
  | case4 p c1 c2 c3 => exact fun h => h
  | case5 p c1 c2 c3 c4 => exact fun h => h
  | case6 p c1 c2 c3 c4 c5 => exact fun h => h
  | case7 p c1 c2 c3 c4 c5 c6 => exact fun h => h
  | case8 p c1 c2 c3 c4 c5 c6 c7 => exact fun h => h
  | case9 p c1 c2 c3 c4 c5 c6 c7 c8 rest h ih =>
    intro hno
    rw [replaceBeeHoonGo, if_pos h, hasOccNasiGo_riceVermStr_append]
    apply ih
    obtain ⟨hx1, hx2, hx3, hx4, hx5, hx6, hx7, hx8, hp, hw⟩ := h
    subst hx1
    subst hx2
    subst hx3
    subst hx4
    subst hx5
    subst hx6
    subst hx7
    subst hx8
    rw [hasOccNasiGo_cons, hasOccNasiGo_cons, hasOccNasiGo_cons, hasOccNasiGo_cons, hasOccNasiGo_cons, hasOccNasiGo_cons, hasOccNasiGo_cons, hasOccNasiGo_cons] at hno
    obtain ⟨_, hno⟩ := Bool.or_eq_false_iff.mp hno
    obtain ⟨_, hno⟩ := Bool.or_eq_false_iff.mp hno
    obtain ⟨_, hno⟩ := Bool.or_eq_false_iff.mp hno
    obtain ⟨_, hno⟩ := Bool.or_eq_false_iff.mp hno
    obtain ⟨_, hno⟩ := Bool.or_eq_false_iff.mp hno
    obtain ⟨_, hno⟩ := Bool.or_eq_false_iff.mp hno
    obtain ⟨_, hno⟩ := Bool.or_eq_false_iff.mp hno
    obtain ⟨_, hno⟩ := Bool.or_eq_false_iff.mp hno
    exact hno
  | case10 p c1 c2 c3 c4 c5 c6 c7 c8 rest h ih =>
    intro hno
    rw [replaceBeeHoonGo, if_neg h]
    rw [hasOccNasiGo_cons] at hno
    obtain ⟨hnoh, hnot⟩ := Bool.or_eq_false_iff.mp hno
    have hout := ih hnot
    have hhm : headMatchNasi p
        (c1 :: replaceBeeHoonGo (isWordChar c1) (c2 :: c3 :: c4 :: c5 :: c6 :: c7 :: c8 :: rest)) = false := by
      cases hhm' : headMatchNasi p
          (c1 :: replaceBeeHoonGo (isWordChar c1) (c2 :: c3 :: c4 :: c5 :: c6 :: c7 :: c8 :: rest)) with
      | false => rfl
      | true =>
        exfalso
        obtain ⟨R, hR, hp, hword⟩ := headMatchNasi_true _ _ hhm'
        injection hR with hc1 hX
        obtain ⟨t1, ht1, hY1⟩ := replaceBeeHoonGo_cons_inv _ _ _ _ (by decide) hX
        obtain ⟨t2, ht2, hY2⟩ := replaceBeeHoonGo_cons_inv _ _ _ _ (by decide) hY1.symm
        obtain ⟨t3, ht3, hY3⟩ := replaceBeeHoonGo_cons_inv _ _ _ _ (by decide) hY2.symm
        injection ht1 with hc2 ht1'
        rw [ht2] at ht1'
        injection ht1' with hc3 ht2'
        rw [ht3] at ht2'
        injection ht2' with hc4 ht3'
        rw [hY3, replaceBeeHoonGo_headIsWord] at hword
        subst hc1; subst hc2; subst hc3; subst hc4; subst hp
        rw [headMatchNasi] at hnoh
        rw [← ht3'] at hword
        simp [hword] at hnoh
    rw [hasOccNasiGo_cons, hhm, Bool.false_or]
    exact hout

theorem canonicaliseName_fixed (y : List Char)
    (hlow : allLower y = true)
    (hm : hasOccMeeGo false y = false) (hn : hasOccNasiGo false y = false)
    (hb : hasOccBeeHoonGo false y = false)
    (hsp : spacesOnly y = true) (hnd : noDoubleSpace y = true)
    (hh : headNotWS y = true) (hl : lastNotWS y = true) :
    canonicaliseName y = y := by
  unfold canonicaliseName replaceMee replaceNasi replaceBeeHoon
  rw [map_id_of_allLower y hlow, replaceMeeGo_no_occ false y hm,
    replaceNasiGo_no_occ false y hn, replaceBeeHoonGo_no_occ false y hb,
    collapseWs_id y hsp hnd, trimWs_id y hh hl]

/-- Claim C3 (amended): name canonicalisation is idempotent on
whitespace-normalized inputs (all whitespace is a single plain space,
none leading or trailing).  It is not idempotent in general: collapsing
whitespace can create a fresh `bee hoon` occurrence, as in the
counterexample `"bee  hoon"`. -/
theorem claim3_canonicalise_idempotent_on_normalized (x : List Char)
    (h : wsNormalized x = true) :
    canonicaliseName (canonicaliseName x) = canonicaliseName x := by
  simp only [wsNormalized, Bool.and_eq_true, decide_eq_true_eq] at h
  have hsp : spacesOnly x = true := by tauto
  have hnd : noDoubleSpace x = true := by tauto
  have hh : headNotWS x = true := by tauto
  have hl : lastNotWS x = true := by tauto
  have hsp1 : spacesOnly (x.map toLowerCh) = true := spacesOnly_map x hsp
  have hnd1 : noDoubleSpace (x.map toLowerCh) = true := noDouble_map x hnd
  have hh1 : headNotWS (x.map toLowerCh) = true := headNotWS_map x hh
  have hl1 : lastNotWS (x.map toLowerCh) = true := lastNotWS_map x hl
  have hlow1 : allLower (x.map toLowerCh) = true := allLower_map x
  have hsp2 : spacesOnly (replaceMeeGo false (x.map toLowerCh)) = true :=
    replaceMeeGo_all _ (by decide) false _ hsp1
  have hnd2 : noDoubleSpace (replaceMeeGo false (x.map toLowerCh)) = true :=
    replaceMeeGo_noDouble false _ hnd1
  have hh2 : headNotWS (replaceMeeGo false (x.map toLowerCh)) = true :=
    replaceMeeGo_headNotWS false _ hh1
  have hl2 : lastNotWS (replaceMeeGo false (x.map toLowerCh)) = true :=
    replaceMeeGo_lastNotWS false _ hl1
  have hlow2 : allLower (replaceMeeGo false (x.map toLowerCh)) = true :=
    replaceMeeGo_all _ (by decide) false _ hlow1
  have hoccM2 : hasOccMeeGo false (replaceMeeGo false (x.map toLowerCh)) = false :=
    hasOccMee_replaceMee false _
  have hsp3 : spacesOnly (replaceNasiGo false (replaceMeeGo false (x.map toLowerCh))) = true :=
    replaceNasiGo_all _ (by decide) false _ hsp2
  have hnd3 : noDoubleSpace (replaceNasiGo false (replaceMeeGo false (x.map toLowerCh))) = true :=
    replaceNasiGo_noDouble false _ hnd2
  have hh3 : headNotWS (replaceNasiGo false (replaceMeeGo false (x.map toLowerCh))) = true :=
    replaceNasiGo_headNotWS false _ hh2
  have hl3 : lastNotWS (replaceNasiGo false (replaceMeeGo false (x.map toLowerCh))) = true :=
    replaceNasiGo_lastNotWS false _ hl2
  have hlow3 : allLower (replaceNasiGo false (replaceMeeGo false (x.map toLowerCh))) = true :=
    replaceNasiGo_all _ (by decide) false _ hlow2
  have hoccM3 : hasOccMeeGo false (replaceNasiGo false (replaceMeeGo false (x.map toLowerCh))) = false :=
    hasOccMee_replaceNasi false _ hoccM2
  have hoccN3 : hasOccNasiGo false (replaceNasiGo false (replaceMeeGo false (x.map toLowerCh))) = false :=
    hasOccNasiGo_replaceNasiGo_kill false _
  have hsp4 : spacesOnly (replaceBeeHoonGo false (replaceNasiGo false (replaceMeeGo false (x.map toLowerCh)))) = true :=
    replaceBeeHoonGo_all _ (by decide) false _ hsp3
  have hnd4 : noDoubleSpace (replaceBeeHoonGo false (replaceNasiGo false (replaceMeeGo false (x.map toLowerCh)))) = true :=
    replaceBeeHoonGo_noDouble false _ hnd3
  have hh4 : headNotWS (replaceBeeHoonGo false (replaceNasiGo false (replaceMeeGo false (x.map toLowerCh)))) = true :=
    replaceBeeHoonGo_headNotWS false _ hh3
  have hl4 : lastNotWS (replaceBeeHoonGo false (replaceNasiGo false (replaceMeeGo false (x.map toLowerCh)))) = true :=
    replaceBeeHoonGo_lastNotWS false _ hl3
  have hlow4 : allLower (replaceBeeHoonGo false (replaceNasiGo false (replaceMeeGo false (x.map toLowerCh)))) = true :=
    replaceBeeHoonGo_all _ (by decide) false _ hlow3
  have hoccM4 : hasOccMeeGo false (replaceBeeHoonGo false (replaceNasiGo false (replaceMeeGo false (x.map toLowerCh)))) = false :=
    hasOccMeeGo_replaceBeeHoonGo_cross false _ hoccM3
  have hoccN4 : hasOccNasiGo false (replaceBeeHoonGo false (replaceNasiGo false (replaceMeeGo false (x.map toLowerCh)))) = false :=
    hasOccNasiGo_replaceBeeHoonGo_cross false _ hoccN3
  have hoccB4 : hasOccBeeHoonGo false (replaceBeeHoonGo false (replaceNasiGo false (replaceMeeGo false (x.map toLowerCh)))) = false :=
    hasOccBeeHoonGo_replaceBeeHoonGo_kill false _
  have hcanon : canonicaliseName x =
      replaceBeeHoonGo false (replaceNasiGo false (replaceMeeGo false (x.map toLowerCh))) := by
    unfold canonicaliseName replaceMee replaceNasi replaceBeeHoon
    rw [collapseWs_id _ hsp4 hnd4, trimWs_id _ hh4 hl4]
  rw [hcanon]
  exact canonicaliseName_fixed _ hlow4 hoccM4 hoccN4 hoccB4 hsp4 hnd4 hh4 hl4

/-- Counterexample to C3 as stated: canonicalisation is not idempotent on
"bee  hoon" (double space): the first pass yields "bee hoon" (the
substitution misses, the collapse then creates the phrase), the second
pass rewrites it to "rice vermicelli". -/
theorem claim3_counterexample :
    canonicaliseName (canonicaliseName "bee  hoon".data) ≠
      canonicaliseName "bee  hoon".data := by
  decide

/-- Witness for the amended C3 at a concrete normalized name. -/
theorem claim3_witness :
    canonicaliseName (canonicaliseName "chicken rice".data) =
      canonicaliseName "chicken rice".data :=
  claim3_canonicalise_idempotent_on_normalized "chicken rice".data (by decide)
